import Mathlib

/-!
Verification of the Hierholzer Euler-tour implementation (`src/hierholzer.py`).

The Python program works on a `Graph` holding a list of vertex labels and a
dict mapping each vertex to the (mutable) list of its currently-unused
neighbors.  We embed the dict as an insertion-ordered association list and
each mutation (`list.pop()`, `list.remove(x)`, rebinding a dict entry) as a
functional update.  Python exceptions (KeyError / IndexError / ValueError)
are modelled by `Option.none`.  The two loops of the source are embedded with
an explicit fuel argument; the fuel passed by the wrappers is proved to be
always sufficient (`tourLoop_fuel_irrel`, `hLoop_fuel_irrel`), so the
embedding agrees with the unbounded Python loops on every input.
-/

/-- Vertex labels are Python strings. -/
abbrev V := String

/-- The adjacency store of `hierholzer.py`: Python's `dict` from a vertex to
the list of its currently-unused neighbors, embedded as an insertion-ordered
association list. -/
abbrev Adj := List (V × List V)

/-- Dictionary lookup `adj_list[v]`: the first entry with the given key
(`none` models a Python `KeyError`). -/
def lookupAdj : Adj → V → Option (List V)
  | [], _ => none
  | e :: rest, v => if e.1 = v then some e.2 else lookupAdj rest v

/-- The current neighbor list of a vertex (empty when the key is missing). -/
def lk (adj : Adj) (v : V) : List V := (lookupAdj adj v).getD []

/-- Whether a vertex is a key of the store. -/
def isKey (adj : Adj) (v : V) : Prop := (lookupAdj adj v).isSome = true

instance (adj : Adj) (v : V) : Decidable (isKey adj v) := by
  unfold isKey; infer_instance

/-- Replace the neighbor list stored at a key (no-op when the key is
missing); embeds the in-place mutation of one dict entry's list. -/
def setAt : Adj → V → List V → Adj
  | [], _, _ => []
  | e :: rest, v, nl => if e.1 = v then (e.1, nl) :: rest else e :: setAt rest v nl

/-- The multiset of directed adjacency entries `(u, w)`; each undirected edge
is stored as its two symmetric directed entries (a self-loop as two entries
in the same list), exactly as the Python adjacency dict stores it. -/
def dirEdges : Adj → Multiset (V × V)
  | [] => 0
  | e :: rest => ((e.2.map (fun w => (e.1, w)) : List (V × V)) : Multiset (V × V)) + dirEdges rest

/-- Total number of directed adjacency entries currently stored. -/
def adjSize (adj : Adj) : Nat := Multiset.card (dirEdges adj)

/-- One traversal step from `cur`, embedding
`next_vertex = adj_list[cur].pop()` followed by
`adj_list[next_vertex].remove(cur)` (lines 28-29 and 33-34 of the source):
pop the last neighbor of `cur`, then remove the first occurrence of `cur`
from the popped neighbor's list.  `none` models the exception raised when the
key is missing, the list is empty, or the reverse entry is absent. -/
def tourStep (adj : Adj) (cur : V) : Option (V × Adj) :=
  match lookupAdj adj cur with
  | none => none
  | some l =>
    match l.getLast? with
    | none => none
    | some nv =>
      match lookupAdj (setAt adj cur l.dropLast) nv with
      | none => none
      | some l2 =>
        if cur ∈ l2 then some (nv, setAt (setAt adj cur l.dropLast) nv (l2.erase cur))
        else none

/-- The `while next_vertex != start_vertex` loop of `hierholzer_tour`
(lines 31-35), with explicit fuel.  Each iteration strictly consumes
adjacency entries, so `adjSize` fuel always suffices (`tourLoop_fuel_irrel`);
the fuel is an embedding device for the while loop, not part of the
algorithm. -/
def tourLoop : Nat → Adj → V → V → List V → Option (List V × Adj)
  | fuel, adj, s, cur, tour =>
    if cur = s then some (tour, adj)
    else
      match fuel with
      | 0 => none
      | f + 1 =>
        match tourStep adj cur with
        | none => none
        | some (nv, adj1) => tourLoop f adj1 s nv (tour ++ [nv])

/-- The function `hierholzer_tour(adj_list, start_vertex)` (lines 27-36): one initial step
from `start_vertex`, then follow unused edges until returning to
`start_vertex`, returning the walk together with the mutated store. -/
def hierholzer_tour (adj : Adj) (s : V) : Option (List V × Adj) :=
  match tourStep adj s with
  | none => none
  | some (nv, adj1) => tourLoop (adjSize adj) adj1 s nv [s, nv]

/-- Python's `list.insert(i, a)`: insert `a` before position `i`
(appending when `i` exceeds the length). -/
def insertAt (l : List V) (i : Nat) (a : V) : List V := l.take i ++ a :: l.drop i

/-- The splice loop of `hierholzer` (lines 55-61): iterate over the reversed
sub-tour, skip its final iterate (the first vertex of `v_tour`, already in
the master tour), and insert every other vertex at position `v_index + 1`. -/
def splice (tour : List V) (i : Nat) (vt : List V) : List V :=
  (vt.reverse.dropLast).foldl (fun t u => insertAt t (i + 1) u) tour

/-- The `for (v_index, v) in enumerate(tour)` loop of `hierholzer`
(lines 48-61).  Python's list iterator re-checks the re-evaluated length of
the mutated list before each iteration, which the index recursion mirrors;
fuel is again an always-sufficient embedding device (`hLoop_fuel_irrel`). -/
def hLoop : Nat → Adj → List V → Nat → Option (List V × Adj)
  | fuel, adj, tour, i =>
    if h : i < tour.length then
      match fuel with
      | 0 => none
      | f + 1 =>
        match lookupAdj adj (tour.get ⟨i, h⟩) with
        | none => none
        | some l =>
          if l.length ≠ 0 then
            match hierholzer_tour adj (tour.get ⟨i, h⟩) with
            | none => none
            | some (vt, adj1) => hLoop f adj1 (splice tour i vt) (i + 1)
          else hLoop f adj tour (i + 1)
    else some (tour, adj)

/-- The `Graph` value consumed by `hierholzer` exposes exactly a list of
vertex labels and the adjacency dict (`g.vertices`, `g.adj_list`). -/
structure Graph where
  vertices : List V
  adj_list : Adj

/-- The function `hierholzer(g)` (lines 38-63), keeping the final adjacency store:
deep-copy the adjacency (functional values make the copy implicit), extract
the initial tour from `vertices[0]`, then run the splice loop. -/
def hierholzerFull (g : Graph) : Option (List V × Adj) :=
  match g.vertices with
  | [] => none
  | v0 :: _ =>
    match hierholzer_tour g.adj_list v0 with
    | none => none
    | some (tour0, adj1) => hLoop (tour0.length + adjSize adj1) adj1 tour0 0

/-- The public result of `hierholzer(g)`: the returned tour (line 63). -/
def hierholzer (g : Graph) : Option (List V) := (hierholzerFull g).map Prod.fst

/-- State-passing form of the call `hierholzer(g)`: the second component is
the state of the caller's graph after the call.  The source deep-copies the
adjacency on line 39 and mutates only the copy, never `g`, so the post-call
state is `g` itself. -/
def hierholzerSt (g : Graph) : Option (List V) × Graph := (hierholzer g, g)

/-- The multiset of directed steps of a walk: every consecutive pair,
together with its reverse (each traversed undirected edge contributes its two
directed entries, matching the two entries removed from the store). -/
def walkPairs : List V → Multiset (V × V)
  | a :: b :: rest => (a, b) ::ₘ (b, a) ::ₘ walkPairs (b :: rest)
  | _ => 0

/-- The consecutive pairs of a tour taken as undirected edges. -/
def tourEdges : List V → Multiset (Sym2 V)
  | a :: b :: rest => s(a, b) ::ₘ tourEdges (b :: rest)
  | _ => 0

/-- Keys of the dict are pairwise distinct (always true of a Python dict). -/
def KeysNodup (adj : Adj) : Prop := (adj.map Prod.fst).Nodup

/-- Symmetry of the store: `w` occurs in `u`'s list as often as `u` in
`w`'s. -/
def Symm (adj : Adj) : Prop := ∀ u w, (lk adj u).count w = (lk adj w).count u

/-- Self-loop entries come in pairs: an undirected loop at `v` is stored as
two occurrences of `v` in its own list. -/
def LoopsEven (adj : Adj) : Prop := ∀ v, Even ((lk adj v).count v)

/-- Every vertex has an even number of unused incident edge entries. -/
def EvenDeg (adj : Adj) : Prop := ∀ v, Even (lk adj v).length

/-- A well-formed adjacency store, modelled from the spec's data model: a
symmetric multiset-style adjacency with dict keys and paired loop entries. -/
def StoreWF (adj : Adj) : Prop := KeysNodup adj ∧ Symm adj ∧ LoopsEven adj

/-- One-step reachability followed reflexively-transitively along currently
unused edges. -/
def Reach (adj : Adj) : V → V → Prop :=
  Relation.ReflTransGen (fun a b => b ∈ lk adj a)

/-- All stored vertices are mutually reachable along stored edges. -/
def ConnectedAdj (adj : Adj) : Prop :=
  ∀ u w, isKey adj u → isKey adj w → Reach adj u w

/-- Well-formed input graph, modelled from the spec: a well-formed store
whose listed vertices are exactly its keys. -/
def GraphWF (g : Graph) : Prop :=
  StoreWF g.adj_list ∧ (∀ v ∈ g.vertices, isKey g.adj_list v) ∧
    (∀ e ∈ g.adj_list, e.1 ∈ g.vertices)

/-- The input graph is connected. -/
def Connected (g : Graph) : Prop := ConnectedAdj g.adj_list

/-- The input graph has at least one edge. -/
def HasEdge (g : Graph) : Prop := dirEdges g.adj_list ≠ 0

/-- Number of undirected edges of the input graph (each one is stored as two
directed entries). -/
def numEdges (g : Graph) : Nat := Multiset.card (dirEdges g.adj_list) / 2

/-! ### Basic facts about the association-list dictionary -/

theorem lookupAdj_mem {adj : Adj} {v : V} {l : List V}
    (h : lookupAdj adj v = some l) : (v, l) ∈ adj := by
  induction adj with
  | nil => simp [lookupAdj] at h
  | cons e rest ih =>
    by_cases he : e.1 = v
    · simp [lookupAdj, he] at h
      subst he h
      exact List.mem_cons_self _ _
    · simp [lookupAdj, he] at h
      exact List.mem_cons_of_mem _ (ih h)

theorem lookup_eq_some_lk {adj : Adj} {v : V} (h : lk adj v ≠ []) :
    lookupAdj adj v = some (lk adj v) := by
  unfold lk at *
  cases hl : lookupAdj adj v with
  | none => simp [hl] at h
  | some l => simp [hl]

theorem isKey_of_lk_ne {adj : Adj} {v : V} (h : lk adj v ≠ []) : isKey adj v := by
  unfold isKey
  rw [lookup_eq_some_lk h]
  rfl

theorem isKey_lookup {adj : Adj} {v : V} (h : isKey adj v) :
    ∃ l, lookupAdj adj v = some l := by
  unfold isKey at h
  cases hl : lookupAdj adj v with
  | none => rw [hl] at h; simp at h
  | some l => exact ⟨l, rfl⟩

theorem lookup_setAt_self {adj : Adj} {v : V} {l nl : List V}
    (h : lookupAdj adj v = some l) :
    lookupAdj (setAt adj v nl) v = some nl := by
  induction adj with
  | nil => simp [lookupAdj] at h
  | cons e rest ih =>
    by_cases he : e.1 = v
    · simp [setAt, he, lookupAdj]
    · simp [setAt, he, lookupAdj] at h ⊢
      exact ih h

theorem lookup_setAt_ne {adj : Adj} {v w : V} {nl : List V} (hne : w ≠ v) :
    lookupAdj (setAt adj v nl) w = lookupAdj adj w := by
  have hvw : v ≠ w := fun hh => hne hh.symm
  induction adj with
  | nil => simp [setAt]
  | cons e rest ih =>
    by_cases he : e.1 = v
    · simp [setAt, he, lookupAdj, hvw]
    · by_cases hw : e.1 = w
      · simp [setAt, he, lookupAdj, hw, hne]
      · simp [setAt, he, lookupAdj, hw, ih]

theorem setAt_keys (adj : Adj) (v : V) (nl : List V) :
    (setAt adj v nl).map Prod.fst = adj.map Prod.fst := by
  induction adj with
  | nil => simp [setAt]
  | cons e rest ih =>
    by_cases he : e.1 = v
    · simp [setAt, he]
    · simp [setAt, he, ih]

theorem isKey_iff_mem_keys {adj : Adj} {w : V} :
    isKey adj w ↔ w ∈ adj.map Prod.fst := by
  induction adj with
  | nil => simp [isKey, lookupAdj]
  | cons e rest ih =>
    by_cases he : e.1 = w
    · simp [isKey, lookupAdj, he]
    · have : w ≠ e.1 := fun hh => he hh.symm
      simp [isKey, lookupAdj, he, this] at ih ⊢
      exact ih

theorem isKey_setAt {adj : Adj} {v w : V} {nl : List V} :
    isKey (setAt adj v nl) w ↔ isKey adj w := by
  rw [isKey_iff_mem_keys, isKey_iff_mem_keys, setAt_keys]

/-! ### Directed-entry accounting -/

theorem dirEdges_setAt {adj : Adj} {v : V} {l : List V} (nl : List V)
    (h : lookupAdj adj v = some l) :
    dirEdges (setAt adj v nl) + (l.map (fun w => (v, w)) : List (V × V)) =
      dirEdges adj + (nl.map (fun w => (v, w)) : List (V × V)) := by
  induction adj with
  | nil => simp [lookupAdj] at h
  | cons e rest ih =>
    by_cases he : e.1 = v
    · simp only [lookupAdj, he, if_pos] at h
      cases h
      simp only [setAt, he, if_pos, dirEdges]
      abel
    · simp only [lookupAdj, he, if_neg, Ne, not_false_iff] at h
      simp only [setAt, he, if_neg, Ne, not_false_iff, dirEdges]
      have := ih h
      rw [add_assoc, this, add_assoc]

theorem lookup_length_le_adjSize {adj : Adj} {v : V} {l : List V}
    (h : lookupAdj adj v = some l) : l.length ≤ adjSize adj := by
  induction adj with
  | nil => simp [lookupAdj] at h
  | cons e rest ih =>
    by_cases he : e.1 = v
    · simp only [lookupAdj, he, if_pos] at h
      cases h
      simp [adjSize, dirEdges]
    · simp only [lookupAdj, he, if_neg, Ne, not_false_iff] at h
      have := ih h
      simp only [adjSize, dirEdges, Multiset.card_add] at this ⊢
      omega

theorem mem_dirEdges_of_lk {adj : Adj} {u w : V} (h : w ∈ lk adj u) :
    (u, w) ∈ dirEdges adj := by
  induction adj with
  | nil => simp [lk, lookupAdj] at h
  | cons e rest ih =>
    by_cases he : e.1 = u
    · simp only [lk, lookupAdj, he, if_pos, Option.getD_some] at h
      simp only [dirEdges, Multiset.mem_add]
      left
      rw [he]
      simp only [Multiset.mem_coe, List.mem_map]
      exact ⟨w, h, rfl⟩
    · simp only [lk, lookupAdj, he, if_neg, Ne, not_false_iff] at h
      simp only [dirEdges, Multiset.mem_add]
      exact Or.inr (ih h)

theorem mem_lookup_of_nodup {adj : Adj} {v : V} {l : List V}
    (hnd : KeysNodup adj) (h : (v, l) ∈ adj) : lookupAdj adj v = some l := by
  induction adj with
  | nil => simp at h
  | cons e rest ih =>
    rcases List.mem_cons.1 h with h1 | h2
    · rw [h1.symm]
      simp [lookupAdj]
    · by_cases he : e.1 = v
      · exfalso
        unfold KeysNodup at hnd
        simp only [List.map_cons, List.nodup_cons] at hnd
        exact hnd.1 (he ▸ (List.mem_map_of_mem Prod.fst h2 : v ∈ rest.map Prod.fst))
      · simp only [lookupAdj, he, if_neg, Ne, not_false_iff]
        exact ih (by
          unfold KeysNodup at hnd ⊢
          simp only [List.map_cons, List.nodup_cons] at hnd
          exact hnd.2) h2

theorem mem_lk_of_dirEdges {adj : Adj} {u w : V} (hnd : KeysNodup adj)
    (h : (u, w) ∈ dirEdges adj) : w ∈ lk adj u := by
  induction adj with
  | nil => simp [dirEdges] at h
  | cons e rest ih =>
    have hnd2 : KeysNodup rest := by
      unfold KeysNodup at hnd ⊢
      simp only [List.map_cons, List.nodup_cons] at hnd
      exact hnd.2
    simp only [dirEdges, Multiset.mem_add, Multiset.mem_coe, List.mem_map] at h
    rcases h with ⟨x, hx, hpair⟩ | h2
    · have hu : e.1 = u := congrArg Prod.fst hpair
      have hw : x = w := congrArg Prod.snd hpair
      subst hw
      simp [lk, lookupAdj, hu, hx]
    · have hw := ih hnd2 h2
      by_cases he : e.1 = u
      · exfalso
        have hne : lk rest u ≠ [] := fun hh => by rw [hh] at hw; simp at hw
        have := lookupAdj_mem (lookup_eq_some_lk hne)
        unfold KeysNodup at hnd
        simp only [List.map_cons, List.nodup_cons] at hnd
        exact hnd.1 (he ▸ (List.mem_map_of_mem Prod.fst this : u ∈ rest.map Prod.fst))
      · simpa [lk, lookupAdj, he] using hw

theorem lookup_eq_none {adj : Adj} {v : V} (h : ¬ isKey adj v) :
    lookupAdj adj v = none := by
  cases hl : lookupAdj adj v with
  | none => rfl
  | some l => exact absurd (by unfold isKey; rw [hl]; rfl) h

theorem dirEdges_eq_zero {adj : Adj} (hnd : KeysNodup adj)
    (h : ∀ v, lk adj v = []) : dirEdges adj = 0 := by
  induction adj with
  | nil => rfl
  | cons e rest ih =>
    unfold KeysNodup at hnd
    simp only [List.map_cons, List.nodup_cons] at hnd
    have he2 : e.2 = [] := by
      have := h e.1
      simpa [lk, lookupAdj] using this
    have hrest : ∀ v, lk rest v = [] := by
      intro v
      by_cases he : e.1 = v
      · have : ¬ isKey rest v := by
          rw [isKey_iff_mem_keys]
          exact he ▸ hnd.1
        simp [lk, lookup_eq_none this]
      · have := h v
        simpa [lk, lookupAdj, he] using this
    simp [dirEdges, he2, ih hnd.2 hrest]

/-! ### Small list facts -/

theorem take_succ_get : ∀ (l : List V) (i : Nat) (h : i < l.length),
    l.take (i + 1) = l.take i ++ [l.get ⟨i, h⟩]
  | a :: t, 0, _ => by simp
  | a :: t, i + 1, h => by
    have := take_succ_get t i (by simpa using h)
    simp only [List.take_succ_cons, List.get_cons_succ]
    rw [this]
    rfl

theorem mem_of_head? {l : List V} {a : V} (h : l.head? = some a) : a ∈ l := by
  cases l with
  | nil => simp at h
  | cons b t =>
    simp only [List.head?_cons, Option.some.injEq] at h
    exact h ▸ List.mem_cons_self _ _

theorem count_erase_self_add_one {l : List V} {a : V} (h : a ∈ l) :
    (l.erase a).count a + 1 = l.count a := by
  have hp := List.perm_cons_erase h
  have := hp.count_eq a
  simp only [List.count_cons_self] at this
  omega

/-! ### Walk-pair accounting -/

theorem walkPairs_cons_cons (a b : V) (r : List V) :
    walkPairs (a :: b :: r) = (a, b) ::ₘ (b, a) ::ₘ walkPairs (b :: r) := rfl

theorem walkPairs_card : ∀ t : List V,
    Multiset.card (walkPairs t) = 2 * (t.length - 1)
  | [] => rfl
  | [_] => rfl
  | a :: b :: r => by
    have := walkPairs_card (b :: r)
    simp only [walkPairs_cons_cons, Multiset.card_cons, List.length_cons] at this ⊢
    omega

theorem walkPairs_mem : ∀ {t : List V} {p : V × V}, p ∈ walkPairs t →
    p.1 ∈ t ∧ p.2 ∈ t
  | [], p, h => by simp [walkPairs] at h
  | [_], p, h => by simp [walkPairs] at h
  | a :: b :: r, p, h => by
    simp only [walkPairs_cons_cons, Multiset.mem_cons] at h
    rcases h with h | h | h
    · subst h
      exact ⟨List.mem_cons_self _ _, List.mem_cons_of_mem _ (List.mem_cons_self _ _)⟩
    · subst h
      exact ⟨List.mem_cons_of_mem _ (List.mem_cons_self _ _), List.mem_cons_self _ _⟩
    · have := walkPairs_mem h
      exact ⟨List.mem_cons_of_mem _ this.1, List.mem_cons_of_mem _ this.2⟩

theorem walkPairs_middle (a : V) (Y : List V) : ∀ X : List V,
    walkPairs (X ++ a :: Y) = walkPairs (X ++ [a]) + walkPairs (a :: Y)
  | [] => by simp [walkPairs]
  | [x] => by
    simp only [List.cons_append, List.nil_append, walkPairs_cons_cons]
    cases Y with
    | nil => simp [walkPairs]
    | cons y r =>
      simp only [walkPairs_cons_cons, walkPairs, Multiset.cons_add,
        ← Multiset.singleton_add]
      abel
  | x :: x2 :: X2 => by
    have := walkPairs_middle a Y (x2 :: X2)
    simp only [List.cons_append, walkPairs_cons_cons] at this ⊢
    rw [this, Multiset.cons_add, Multiset.cons_add]

theorem walkPairs_map_sym2 : ∀ t : List V,
    Multiset.map Sym2.mk (walkPairs t) = tourEdges t + tourEdges t
  | [] => rfl
  | [_] => rfl
  | a :: b :: r => by
    have := walkPairs_map_sym2 (b :: r)
    simp only [walkPairs_cons_cons, Multiset.map_cons, this, tourEdges]
    have hswap : Sym2.mk (b, a) = Sym2.mk (a, b) := Sym2.eq_swap
    rw [hswap]
    simp only [← Multiset.singleton_add]
    abel

/-! ### Inversion and effects of one traversal step -/

theorem tourStep_inv {adj : Adj} {cur nv : V} {adj' : Adj}
    (h : tourStep adj cur = some (nv, adj')) :
    ∃ l l2, lookupAdj adj cur = some l ∧ l.getLast? = some nv ∧
      lookupAdj (setAt adj cur l.dropLast) nv = some l2 ∧ cur ∈ l2 ∧
      adj' = setAt (setAt adj cur l.dropLast) nv (l2.erase cur) := by
  unfold tourStep at h
  split at h
  · exact absurd h (by simp)
  · rename_i l h1
    split at h
    · exact absurd h (by simp)
    · rename_i nv0 h2
      split at h
      · exact absurd h (by simp)
      · rename_i l2 h3
        split at h
        · rename_i h4
          simp only [Option.some.injEq, Prod.mk.injEq] at h
          rcases h with ⟨hnv, hadj⟩
          subst hnv
          exact ⟨l, l2, h1, h2, h3, h4, hadj.symm⟩
        · exact absurd h (by simp)

theorem tourStep_some_of {adj : Adj} {cur nv : V} {l l2 : List V}
    (h1 : lookupAdj adj cur = some l) (h2 : l.getLast? = some nv)
    (h3 : lookupAdj (setAt adj cur l.dropLast) nv = some l2) (h4 : cur ∈ l2) :
    tourStep adj cur =
      some (nv, setAt (setAt adj cur l.dropLast) nv (l2.erase cur)) := by
  unfold tourStep
  rw [h1]
  simp only []
  rw [h2]
  simp only []
  rw [h3]
  simp only []
  rw [if_pos h4]

theorem tourStep_dirEdges {adj : Adj} {cur nv : V} {adj' : Adj}
    (h : tourStep adj cur = some (nv, adj')) :
    dirEdges adj = (cur, nv) ::ₘ (nv, cur) ::ₘ dirEdges adj' := by
  obtain ⟨l, l2, h1, h2, h3, h4, hadj⟩ := tourStep_inv h
  have hl : l.dropLast ++ [nv] = l :=
    List.dropLast_append_getLast? nv (Option.mem_def.2 h2)
  have e1 := dirEdges_setAt l.dropLast h1
  have e2 := dirEdges_setAt (l2.erase cur) h3
  rw [← hadj] at e2
  -- first update: popping nv from cur's list removes (cur, nv)
  have hmap1 : (l.map (fun w => (cur, w)) : Multiset (V × V)) =
      (l.dropLast.map (fun w => (cur, w)) : List (V × V)) + {(cur, nv)} := by
    conv_lhs => rw [← hl]
    rw [List.map_append]
    rfl
  have e1' : dirEdges (setAt adj cur l.dropLast) + {(cur, nv)} = dirEdges adj := by
    have := e1
    rw [hmap1] at this
    have h' : dirEdges (setAt adj cur l.dropLast) + {(cur, nv)} +
        (l.dropLast.map (fun w => (cur, w)) : List (V × V)) =
        dirEdges adj + (l.dropLast.map (fun w => (cur, w)) : List (V × V)) := by
      rw [← this]; abel
    exact add_right_cancel h'
  -- second update: removing cur from nv's list removes (nv, cur)
  have hmap2 : (l2.map (fun w => (nv, w)) : Multiset (V × V)) =
      ((l2.erase cur).map (fun w => (nv, w)) : List (V × V)) + {(nv, cur)} := by
    have hperm : List.Perm l2 (cur :: l2.erase cur) := List.perm_cons_erase h4
    have : (l2.map (fun w => (nv, w)) : Multiset (V × V)) =
        ((cur :: l2.erase cur).map (fun w => (nv, w)) : List (V × V)) :=
      Multiset.coe_eq_coe.2 (hperm.map _)
    rw [this]
    simp only [List.map_cons]
    rw [← Multiset.cons_coe, ← Multiset.singleton_add]
    abel
  have e2' : dirEdges adj' + {(nv, cur)} = dirEdges (setAt adj cur l.dropLast) := by
    have := e2
    rw [hmap2] at this
    have h' : dirEdges adj' + {(nv, cur)} +
        ((l2.erase cur).map (fun w => (nv, w)) : List (V × V)) =
        dirEdges (setAt adj cur l.dropLast) +
        ((l2.erase cur).map (fun w => (nv, w)) : List (V × V)) := by
      rw [← this]; abel
    exact add_right_cancel h'
  rw [← e1', ← e2']
  rw [← Multiset.singleton_add, ← Multiset.singleton_add]
  abel

theorem tourStep_count {adj : Adj} {cur nv : V} {adj' : Adj}
    (h : tourStep adj cur = some (nv, adj')) (p : V × V) :
    (dirEdges adj).count p = (dirEdges adj').count p +
      ((if p = (cur, nv) then 1 else 0) + (if p = (nv, cur) then 1 else 0)) := by
  rw [tourStep_dirEdges h]
  rw [Multiset.count_cons, Multiset.count_cons]
  omega

theorem tourStep_le {adj : Adj} {cur nv : V} {adj' : Adj}
    (h : tourStep adj cur = some (nv, adj')) : dirEdges adj' ≤ dirEdges adj := by
  rw [tourStep_dirEdges h]
  exact le_trans (Multiset.le_cons_self _ _) (Multiset.le_cons_self _ _)

theorem tourStep_adjSize {adj : Adj} {cur nv : V} {adj' : Adj}
    (h : tourStep adj cur = some (nv, adj')) :
    adjSize adj = adjSize adj' + 2 := by
  unfold adjSize
  rw [tourStep_dirEdges h]
  simp

theorem tourStep_keys {adj : Adj} {cur nv : V} {adj' : Adj}
    (h : tourStep adj cur = some (nv, adj')) :
    adj'.map Prod.fst = adj.map Prod.fst := by
  obtain ⟨l, l2, _, _, _, _, hadj⟩ := tourStep_inv h
  rw [hadj, setAt_keys, setAt_keys]

theorem tourStep_isKey {adj : Adj} {cur nv : V} {adj' : Adj}
    (h : tourStep adj cur = some (nv, adj')) (w : V) :
    isKey adj' w ↔ isKey adj w := by
  rw [isKey_iff_mem_keys, isKey_iff_mem_keys, tourStep_keys h]

theorem tourStep_nodup {adj : Adj} {cur nv : V} {adj' : Adj}
    (h : tourStep adj cur = some (nv, adj')) (hnd : KeysNodup adj) :
    KeysNodup adj' := by
  unfold KeysNodup at *
  rw [tourStep_keys h]
  exact hnd

/-! ### Multiset-level store invariants -/

/-- Symmetry of the store, expressed on the directed-entry multiset. -/
def SymmM (adj : Adj) : Prop :=
  ∀ a b : V, (dirEdges adj).count (a, b) = (dirEdges adj).count (b, a)

/-- Paired self-loop entries, expressed on the directed-entry multiset. -/
def LoopsEvenM (adj : Adj) : Prop := ∀ v : V, Even ((dirEdges adj).count (v, v))

/-- Degree of a vertex counted on the directed-entry multiset. -/
def degM (adj : Adj) (v : V) : Nat :=
  Multiset.countP (fun p => p.1 = v) (dirEdges adj)

/-- Walk-parity invariant: every vertex has even remaining degree, except
that the start and the current vertex (when distinct) have odd remaining
degree. -/
def BalM (adj : Adj) (s cur : V) : Prop :=
  ∀ v : V, Even (degM adj v + (if v = s then 1 else 0) + (if v = cur then 1 else 0))

theorem tourStep_symmM {adj : Adj} {cur nv : V} {adj' : Adj}
    (h : tourStep adj cur = some (nv, adj')) (hs : SymmM adj) : SymmM adj' := by
  intro a b
  have e1 := tourStep_count h (a, b)
  have e2 := tourStep_count h (b, a)
  have hiff1 : ((a, b) = ((cur, nv) : V × V)) ↔ ((b, a) = ((nv, cur) : V × V)) := by
    simp only [Prod.mk.injEq]
    exact and_comm
  have hiff2 : ((a, b) = ((nv, cur) : V × V)) ↔ ((b, a) = ((cur, nv) : V × V)) := by
    simp only [Prod.mk.injEq]
    exact and_comm
  rw [if_congr hiff1 rfl rfl, if_congr hiff2 rfl rfl] at e1
  have := hs a b
  omega

theorem tourStep_loopsEvenM {adj : Adj} {cur nv : V} {adj' : Adj}
    (h : tourStep adj cur = some (nv, adj')) (hs : LoopsEvenM adj) :
    LoopsEvenM adj' := by
  intro v
  have e := tourStep_count h (v, v)
  have hiff : ((v, v) = ((cur, nv) : V × V)) ↔ ((v, v) = ((nv, cur) : V × V)) := by
    simp only [Prod.mk.injEq]
    exact and_comm
  rw [if_congr hiff rfl rfl] at e
  have := hs v
  rw [Nat.even_iff] at this ⊢
  split at e <;> omega

theorem tourStep_degM {adj : Adj} {cur nv : V} {adj' : Adj}
    (h : tourStep adj cur = some (nv, adj')) (v : V) :
    degM adj v = degM adj' v +
      ((if v = cur then 1 else 0) + (if v = nv then 1 else 0)) := by
  unfold degM
  rw [tourStep_dirEdges h]
  simp only [Multiset.countP_cons]
  have c1 : (if ((cur, nv) : V × V).1 = v then 1 else 0) =
      (if v = cur then 1 else 0) := by
    by_cases hh : v = cur
    · simp [hh]
    · have hne : ¬ (cur = v) := fun e => hh e.symm
      simp [hh, hne]
  have c2 : (if ((nv, cur) : V × V).1 = v then 1 else 0) =
      (if v = nv then 1 else 0) := by
    by_cases hh : v = nv
    · simp [hh]
    · have hne : ¬ (nv = v) := fun e => hh e.symm
      simp [hh, hne]
  rw [c1, c2]
  omega

theorem tourStep_balM {adj : Adj} {cur nv : V} {adj' : Adj}
    (h : tourStep adj cur = some (nv, adj')) {s : V} (hb : BalM adj s cur) :
    BalM adj' s nv := by
  intro v
  have e := tourStep_degM h v
  have := hb v
  rw [Nat.even_iff] at this ⊢
  split_ifs at this e ⊢ <;> omega

/-! ### Bridging the multiset-level and lookup-level invariants -/

theorem count_pair_map (a u w : V) (l : List V) :
    Multiset.count ((u, w) : V × V) ((l.map (fun x => (a, x)) : List (V × V)) : Multiset (V × V)) =
      if a = u then l.count w else 0 := by
  induction l with
  | nil => simp
  | cons x t ih =>
    simp only [List.map_cons, ← Multiset.cons_coe, Multiset.count_cons]
    rw [ih, List.count_cons]
    by_cases hau : a = u
    · by_cases hwx : w = x
      · have hp : ((u, w) : V × V) = (a, x) := by rw [hau, hwx]
        simp [hau, hwx, hp]
      · have hp : ¬ (((u, w) : V × V) = (a, x)) := by
          simp only [Prod.mk.injEq]
          exact fun hh => hwx hh.2
        have hxw : ¬ x = w := fun hh => hwx hh.symm
        simp [hau, hwx, hxw, hp]
    · have hp : ¬ (((u, w) : V × V) = (a, x)) := by
        simp only [Prod.mk.injEq]
        exact fun hh => hau hh.1.symm
      simp [hau, hp]

theorem countP_pair_map (a u : V) (l : List V) :
    Multiset.countP (fun p : V × V => p.1 = u)
      ((l.map (fun x => (a, x)) : List (V × V)) : Multiset (V × V)) =
      if a = u then l.length else 0 := by
  induction l with
  | nil => simp
  | cons x t ih =>
    simp only [List.map_cons, ← Multiset.cons_coe, Multiset.countP_cons]
    rw [ih]
    by_cases hau : a = u
    · simp [hau]
    · simp [hau]

theorem count_dirEdges_eq {adj : Adj} (hnd : KeysNodup adj) (u w : V) :
    (dirEdges adj).count (u, w) = (lk adj u).count w := by
  induction adj with
  | nil => simp [dirEdges, lk, lookupAdj]
  | cons e rest ih =>
    unfold KeysNodup at hnd
    simp only [List.map_cons, List.nodup_cons] at hnd
    simp only [dirEdges, Multiset.count_add, count_pair_map]
    by_cases he : e.1 = u
    · have hnone : lookupAdj rest u = none :=
        lookup_eq_none (by rw [isKey_iff_mem_keys]; exact he ▸ hnd.1)
      have : lk rest u = [] := by simp [lk, hnone]
      rw [ih hnd.2, this]
      simp [lk, lookupAdj, he]
    · rw [ih hnd.2]
      simp [lk, lookupAdj, he]

theorem degM_eq {adj : Adj} (hnd : KeysNodup adj) (u : V) :
    degM adj u = (lk adj u).length := by
  induction adj with
  | nil => simp [degM, dirEdges, lk, lookupAdj]
  | cons e rest ih =>
    unfold KeysNodup at hnd
    simp only [List.map_cons, List.nodup_cons] at hnd
    unfold degM at ih ⊢
    simp only [dirEdges, Multiset.countP_add, countP_pair_map]
    by_cases he : e.1 = u
    · have hnone : lookupAdj rest u = none :=
        lookup_eq_none (by rw [isKey_iff_mem_keys]; exact he ▸ hnd.1)
      have hlk : lk rest u = [] := by simp [lk, hnone]
      rw [ih hnd.2, hlk]
      simp [lk, lookupAdj, he]
    · rw [ih hnd.2]
      simp [lk, lookupAdj, he]

theorem symmM_of_symm {adj : Adj} (hnd : KeysNodup adj) (hs : Symm adj) :
    SymmM adj := by
  intro a b
  rw [count_dirEdges_eq hnd, count_dirEdges_eq hnd]
  exact hs a b

theorem symm_of_symmM {adj : Adj} (hnd : KeysNodup adj) (hs : SymmM adj) :
    Symm adj := by
  intro a b
  rw [← count_dirEdges_eq hnd, ← count_dirEdges_eq hnd]
  exact hs a b

theorem loopsEvenM_of {adj : Adj} (hnd : KeysNodup adj) (hs : LoopsEven adj) :
    LoopsEvenM adj := by
  intro v
  rw [count_dirEdges_eq hnd]
  exact hs v

theorem evenDeg_balM {adj : Adj} (hnd : KeysNodup adj) {s : V}
    (he : EvenDeg adj) : BalM adj s s := by
  intro v
  rw [degM_eq hnd]
  have := he v
  rw [Nat.even_iff] at this ⊢
  split_ifs <;> omega

theorem balM_evenDeg {adj : Adj} (hnd : KeysNodup adj) {s : V}
    (hb : BalM adj s s) : EvenDeg adj := by
  intro v
  have := hb v
  rw [degM_eq hnd] at this
  rw [Nat.even_iff] at this ⊢
  split_ifs at this <;> omega

/-! ### Success of a traversal step on a well-formed store -/

theorem isKey_of_dirEdges {adj : Adj} {u w : V} (h : (u, w) ∈ dirEdges adj) :
    isKey adj u := by
  induction adj with
  | nil => simp [dirEdges] at h
  | cons e rest ih =>
    simp only [dirEdges, Multiset.mem_add, Multiset.mem_coe, List.mem_map] at h
    rcases h with ⟨x, _, hpair⟩ | h2
    · have hu : e.1 = u := congrArg Prod.fst hpair
      unfold isKey lookupAdj
      rw [hu]
      simp
    · have := ih h2
      rw [isKey_iff_mem_keys] at this ⊢
      simp only [List.map_cons, List.mem_cons]
      exact Or.inr this

theorem getLast?_isSome_of_ne_nil {l : List V} (h : l ≠ []) :
    ∃ a, l.getLast? = some a := by
  cases l with
  | nil => exact absurd rfl h
  | cons x t => exact ⟨(x :: t).getLast (by simp), List.getLast?_eq_getLast _ _⟩

theorem tourStep_success {adj : Adj} {cur : V}
    (hnd : KeysNodup adj) (hs : SymmM adj) (hle : LoopsEvenM adj)
    (hne : lk adj cur ≠ []) :
    ∃ nv adj', tourStep adj cur = some (nv, adj') := by
  have h1 : lookupAdj adj cur = some (lk adj cur) := lookup_eq_some_lk hne
  obtain ⟨nv, h2⟩ := getLast?_isSome_of_ne_nil hne
  have hl : (lk adj cur).dropLast ++ [nv] = lk adj cur :=
    List.dropLast_append_getLast? nv (Option.mem_def.2 h2)
  have hnv_mem : nv ∈ lk adj cur := by
    rw [← hl]
    exact List.mem_append_right _ (List.mem_cons_self _ _)
  have hmem1 : ((cur, nv) : V × V) ∈ dirEdges adj := mem_dirEdges_of_lk hnv_mem
  -- the popped neighbor is a key of the store
  have hkey_nv : isKey adj nv := by
    have hc : 0 < (dirEdges adj).count (nv, cur) := by
      rw [hs nv cur]
      exact Multiset.count_pos.2 hmem1
    exact isKey_of_dirEdges (Multiset.count_pos.1 hc)
  have hnd1 : KeysNodup (setAt adj cur (lk adj cur).dropLast) := by
    unfold KeysNodup
    rw [setAt_keys]
    exact hnd
  have hkey1 : isKey (setAt adj cur (lk adj cur).dropLast) nv := isKey_setAt.2 hkey_nv
  obtain ⟨l2, h3⟩ := isKey_lookup hkey1
  -- the reverse entry survives the pop
  have e1 := dirEdges_setAt (lk adj cur).dropLast h1
  have hcount : 0 < (dirEdges (setAt adj cur (lk adj cur).dropLast)).count (nv, cur) := by
    have hc := congrArg (Multiset.count ((nv, cur) : V × V)) e1
    simp only [Multiset.count_add] at hc
    rw [count_pair_map, count_pair_map] at hc
    by_cases hcn : cur = nv
    · -- a self-loop: the store holds an even, positive number of (cur, cur)
      subst hcn
      have hcc : (dirEdges adj).count (cur, cur) = (lk adj cur).count cur :=
        count_dirEdges_eq hnd cur cur
      have hpos : 0 < (lk adj cur).count cur := by
        rw [List.count_pos_iff]
        exact hnv_mem
      have heven : Even ((lk adj cur).count cur) := by
        have := hle cur
        rwa [hcc] at this
      have hcount_l : (lk adj cur).count cur = (lk adj cur).dropLast.count cur + 1 := by
        conv_lhs => rw [← hl]
        rw [List.count_append]
        simp
      simp only [eq_self_iff_true, if_true] at hc
      rw [Nat.even_iff] at heven
      omega
    · have hcn2 : ¬ (cur = nv) := hcn
      simp only [if_neg hcn2] at hc
      have hpos : 0 < (dirEdges adj).count (nv, cur) := by
        rw [hs nv cur]
        exact Multiset.count_pos.2 hmem1
      omega
  have hmem2 : ((nv, cur) : V × V) ∈ dirEdges (setAt adj cur (lk adj cur).dropLast) :=
    Multiset.count_pos.1 hcount
  have h4 : cur ∈ l2 := by
    have := mem_lk_of_dirEdges hnd1 hmem2
    rwa [lk, h3, Option.getD_some] at this
  exact ⟨nv, _, tourStep_some_of h1 h2 h3 h4⟩

/-! ### The sub-tour loop -/

theorem tourLoop_eq (fuel : Nat) (adj : Adj) (s cur : V) (tour : List V) :
    tourLoop fuel adj s cur tour =
      if cur = s then some (tour, adj)
      else
        match fuel with
        | 0 => none
        | f + 1 =>
          match tourStep adj cur with
          | none => none
          | some (nv, adj1) => tourLoop f adj1 s nv (tour ++ [nv]) := by
  cases fuel <;> rfl

theorem tourLoop_sound : ∀ (fuel : Nat) (adj : Adj) (s cur : V)
    (tour t' : List V) (adj' : Adj),
    tourLoop fuel adj s cur tour = some (t', adj') →
    ∃ ext, t' = tour ++ ext ∧
      dirEdges adj = walkPairs (cur :: ext) + dirEdges adj' ∧
      (cur :: ext).getLast? = some s ∧
      adj'.map Prod.fst = adj.map Prod.fst ∧
      (∀ x ∈ ext, isKey adj x) ∧
      (BalM adj s cur → BalM adj' s s) ∧
      (SymmM adj → SymmM adj') ∧
      (LoopsEvenM adj → LoopsEvenM adj') := by
  intro fuel
  induction fuel with
  | zero =>
    intro adj s cur tour t' adj' h
    rw [tourLoop_eq] at h
    by_cases hcs : cur = s
    · rw [if_pos hcs] at h
      simp only [Option.some.injEq, Prod.mk.injEq] at h
      refine ⟨[], by simp [h.1.symm], ?_, by simp [hcs], by rw [h.2], ?_, ?_, ?_, ?_⟩
      · rw [h.2]
        simp [walkPairs]
      · intro x hx; simp at hx
      · intro hb; rw [hcs] at hb; rw [← h.2]; exact hb
      · intro hs; rw [← h.2]; exact hs
      · intro hs; rw [← h.2]; exact hs
    · rw [if_neg hcs] at h
      simp at h
  | succ f ih =>
    intro adj s cur tour t' adj' h
    rw [tourLoop_eq] at h
    by_cases hcs : cur = s
    · rw [if_pos hcs] at h
      simp only [Option.some.injEq, Prod.mk.injEq] at h
      refine ⟨[], by simp [h.1.symm], ?_, by simp [hcs], by rw [h.2], ?_, ?_, ?_, ?_⟩
      · rw [h.2]
        simp [walkPairs]
      · intro x hx; simp at hx
      · intro hb; rw [hcs] at hb; rw [← h.2]; exact hb
      · intro hs; rw [← h.2]; exact hs
      · intro hs; rw [← h.2]; exact hs
    · rw [if_neg hcs] at h
      cases hstep : tourStep adj cur with
      | none => rw [hstep] at h; simp at h
      | some r =>
        rcases r with ⟨nv, adj1⟩
        rw [hstep] at h
        simp only [] at h
        obtain ⟨ext1, ht', hdir, hlast, hkeys, hext, hbal, hsym, hloops⟩ :=
          ih adj1 s nv (tour ++ [nv]) t' adj' h
        have hkey_nv : isKey adj nv := by
          obtain ⟨l, l2, _, _, h3, _, _⟩ := tourStep_inv hstep
          have : isKey (setAt adj cur l.dropLast) nv := by
            unfold isKey
            rw [h3]
            rfl
          exact isKey_setAt.1 this
        refine ⟨nv :: ext1, by rw [ht', List.append_assoc]; rfl, ?_, ?_, ?_, ?_, ?_, ?_, ?_⟩
        · rw [walkPairs_cons_cons, tourStep_dirEdges hstep, hdir]
          simp [Multiset.cons_add]
        · rw [List.getLast?_cons_cons]
          exact hlast
        · rw [hkeys, tourStep_keys hstep]
        · intro x hx
          rcases List.mem_cons.1 hx with h1 | h2
          · exact h1 ▸ hkey_nv
          · exact (tourStep_isKey hstep x).1 (hext x h2)
        · intro hb
          exact hbal (tourStep_balM hstep hb)
        · intro hs
          exact hsym (tourStep_symmM hstep hs)
        · intro hs
          exact hloops (tourStep_loopsEvenM hstep hs)

theorem tourLoop_success : ∀ (fuel : Nat) (adj : Adj) (s cur : V) (tour : List V),
    KeysNodup adj → SymmM adj → LoopsEvenM adj → BalM adj s cur →
    adjSize adj ≤ fuel →
    ∃ r, tourLoop fuel adj s cur tour = some r := by
  intro fuel
  induction fuel with
  | zero =>
    intro adj s cur tour hnd hs hle hb hsize
    rw [tourLoop_eq]
    by_cases hcs : cur = s
    · rw [if_pos hcs]; exact ⟨_, rfl⟩
    · exfalso
      have hbc := hb cur
      have hdeg : degM adj cur ≤ adjSize adj := by
        unfold degM adjSize
        exact Multiset.countP_le_card _ _
      have hdz : degM adj cur = 0 := by omega
      rw [Nat.even_iff] at hbc
      simp only [if_neg hcs, eq_self_iff_true, if_true] at hbc
      omega
  | succ f ih =>
    intro adj s cur tour hnd hs hle hb hsize
    rw [tourLoop_eq]
    by_cases hcs : cur = s
    · rw [if_pos hcs]; exact ⟨_, rfl⟩
    · rw [if_neg hcs]
      have hbc := hb cur
      rw [Nat.even_iff] at hbc
      simp only [if_neg hcs, eq_self_iff_true, if_true] at hbc
      have hne : lk adj cur ≠ [] := by
        intro hnil
        have : degM adj cur = 0 := by rw [degM_eq hnd, hnil]; rfl
        omega
      obtain ⟨nv, adj1, hstep⟩ := tourStep_success hnd hs hle hne
      rw [hstep]
      simp only []
      have hsize1 := tourStep_adjSize hstep
      exact ih adj1 s nv (tour ++ [nv]) (tourStep_nodup hstep hnd)
        (tourStep_symmM hstep hs) (tourStep_loopsEvenM hstep hle)
        (tourStep_balM hstep hb) (by omega)

theorem tourLoop_fuel_succ : ∀ (f : Nat) (adj : Adj) (s cur : V) (tour : List V),
    adjSize adj ≤ f →
    tourLoop f adj s cur tour = tourLoop (f + 1) adj s cur tour := by
  intro f
  induction f with
  | zero =>
    intro adj s cur tour hsize
    rw [tourLoop_eq, tourLoop_eq]
    by_cases hcs : cur = s
    · rw [if_pos hcs, if_pos hcs]
    · rw [if_neg hcs, if_neg hcs]
      cases hstep : tourStep adj cur with
      | none => rfl
      | some r =>
        exfalso
        rcases r with ⟨nv, adj1⟩
        have := tourStep_adjSize hstep
        omega
  | succ f ih =>
    intro adj s cur tour hsize
    rw [tourLoop_eq, tourLoop_eq]
    by_cases hcs : cur = s
    · rw [if_pos hcs, if_pos hcs]
    · rw [if_neg hcs, if_neg hcs]
      cases hstep : tourStep adj cur with
      | none => rfl
      | some r =>
        rcases r with ⟨nv, adj1⟩
        simp only []
        have := tourStep_adjSize hstep
        exact ih adj1 s nv (tour ++ [nv]) (by omega)

theorem tourLoop_fuel_add (d : Nat) : ∀ (f : Nat) (adj : Adj) (s cur : V)
    (tour : List V), adjSize adj ≤ f →
    tourLoop f adj s cur tour = tourLoop (f + d) adj s cur tour := by
  induction d with
  | zero => intro f adj s cur tour _; rfl
  | succ d ih =>
    intro f adj s cur tour hsize
    rw [ih f adj s cur tour hsize]
    have : f + (d + 1) = (f + d) + 1 := by omega
    rw [this]
    exact tourLoop_fuel_succ (f + d) adj s cur tour (by omega)

/-- The fuel given to the sub-tour loop is irrelevant as soon as it covers
the store size: the loop consumes two entries per iteration, so it always
exits (or fails like Python) before such a fuel runs out. -/
theorem tourLoop_fuel_irrel (f1 f2 : Nat) (adj : Adj) (s cur : V)
    (tour : List V) (h1 : adjSize adj ≤ f1) (h2 : adjSize adj ≤ f2) :
    tourLoop f1 adj s cur tour = tourLoop f2 adj s cur tour := by
  rcases le_total f1 f2 with hle | hle
  · have : f2 = f1 + (f2 - f1) := by omega
    rw [this] at *
    exact tourLoop_fuel_add (f2 - f1) f1 adj s cur tour h1
  · have : f1 = f2 + (f1 - f2) := by omega
    rw [this] at *
    exact (tourLoop_fuel_add (f1 - f2) f2 adj s cur tour h2).symm

/-! ### Soundness and success of hierholzer_tour -/

theorem hierholzer_tour_sound {adj : Adj} {s : V} {vt : List V} {adj' : Adj}
    (h : hierholzer_tour adj s = some (vt, adj')) :
    vt.head? = some s ∧ vt.getLast? = some s ∧ 2 ≤ vt.length ∧
    dirEdges adj = walkPairs vt + dirEdges adj' ∧
    adj'.map Prod.fst = adj.map Prod.fst ∧
    (∀ x ∈ vt, isKey adj x) ∧
    (BalM adj s s → BalM adj' s s) ∧
    (SymmM adj → SymmM adj') ∧
    (LoopsEvenM adj → LoopsEvenM adj') ∧
    (KeysNodup adj → KeysNodup adj') := by
  unfold hierholzer_tour at h
  cases hstep : tourStep adj s with
  | none => rw [hstep] at h; simp at h
  | some r =>
    rcases r with ⟨nv, adj1⟩
    rw [hstep] at h
    simp only [] at h
    obtain ⟨ext, ht', hdir, hlast, hkeys, hext, hbal, hsym, hloops⟩ :=
      tourLoop_sound (adjSize adj) adj1 s nv ([s, nv]) vt adj' h
    have hvt : vt = s :: nv :: ext := by rw [ht']; rfl
    have hkey_s : isKey adj s := by
      obtain ⟨l, l2, h1, _, _, _, _⟩ := tourStep_inv hstep
      unfold isKey
      rw [h1]
      rfl
    have hkey_nv : isKey adj nv := by
      obtain ⟨l, l2, _, _, h3, _, _⟩ := tourStep_inv hstep
      have : isKey (setAt adj s l.dropLast) nv := by
        unfold isKey
        rw [h3]
        rfl
      exact isKey_setAt.1 this
    refine ⟨by rw [hvt]; rfl, ?_, by rw [hvt]; simp, ?_, ?_, ?_, ?_, ?_, ?_, ?_⟩
    · rw [hvt, List.getLast?_cons_cons]
      exact hlast
    · rw [hvt, walkPairs_cons_cons, tourStep_dirEdges hstep, hdir]
      simp [Multiset.cons_add]
    · rw [hkeys, tourStep_keys hstep]
    · intro x hx
      rw [hvt] at hx
      rcases List.mem_cons.1 hx with h1 | hx
      · exact h1 ▸ hkey_s
      · rcases List.mem_cons.1 hx with h2 | hx
        · exact h2 ▸ hkey_nv
        · exact (tourStep_isKey hstep x).1 (hext x hx)
    · intro hb
      exact hbal (tourStep_balM hstep hb)
    · intro hs
      exact hsym (tourStep_symmM hstep hs)
    · intro hs
      exact hloops (tourStep_loopsEvenM hstep hs)
    · intro hnd
      unfold KeysNodup
      rw [hkeys, tourStep_keys hstep]
      exact hnd

theorem hierholzer_tour_success {adj : Adj} {s : V}
    (hnd : KeysNodup adj) (hs : SymmM adj) (hle : LoopsEvenM adj)
    (hb : BalM adj s s) (hne : lk adj s ≠ []) :
    ∃ r, hierholzer_tour adj s = some r := by
  obtain ⟨nv, adj1, hstep⟩ := tourStep_success hnd hs hle hne
  unfold hierholzer_tour
  rw [hstep]
  simp only []
  have hsize := tourStep_adjSize hstep
  exact tourLoop_success (adjSize adj) adj1 s nv [s, nv]
    (tourStep_nodup hstep hnd) (tourStep_symmM hstep hs)
    (tourStep_loopsEvenM hstep hle) (tourStep_balM hstep hb) (by omega)

theorem hierholzer_tour_adjSize {adj : Adj} {s : V} {vt : List V} {adj' : Adj}
    (h : hierholzer_tour adj s = some (vt, adj')) :
    adjSize adj = 2 * (vt.length - 1) + adjSize adj' := by
  have hdir := (hierholzer_tour_sound h).2.2.2.1
  have := congrArg Multiset.card hdir
  rw [Multiset.card_add, walkPairs_card] at this
  unfold adjSize
  omega

/-! ### The splice operation -/

theorem insertAt_length {l : List V} {p : Nat} (a : V) (h : p ≤ l.length) :
    (insertAt l p a).length = l.length + 1 := by
  unfold insertAt
  simp only [List.length_append, List.length_cons, List.length_take, List.length_drop]
  omega

theorem foldl_insertAt : ∀ (xs l : List V) (p : Nat), p ≤ l.length →
    xs.foldl (fun t u => insertAt t p u) l = l.take p ++ xs.reverse ++ l.drop p
  | [], l, p, h => by simp
  | x :: xs, l, p, h => by
    have hlen : p ≤ (insertAt l p x).length := by
      rw [insertAt_length x h]
      omega
    have := foldl_insertAt xs (insertAt l p x) p hlen
    simp only [List.foldl_cons]
    rw [this]
    have htake : (insertAt l p x).take p = l.take p := by
      unfold insertAt
      rw [List.take_append_of_le_length (by rw [List.length_take]; omega)]
      rw [List.take_take]
      congr 1
      omega
    have hdrop : (insertAt l p x).drop p = x :: l.drop p := by
      unfold insertAt
      rw [List.drop_append_of_le_length (by rw [List.length_take]; omega)]
      rw [List.drop_take]
      have : p - p = 0 := by omega
      rw [this]
      simp
    rw [htake, hdrop, List.reverse_cons]
    simp [List.append_assoc]

theorem splice_eq {tour : List V} {i : Nat} {vt : List V}
    (hvt : vt ≠ []) (hi : i < tour.length) :
    splice tour i vt = tour.take (i + 1) ++ vt.tail ++ tour.drop (i + 1) := by
  unfold splice
  cases vt with
  | nil => exact absurd rfl hvt
  | cons v t =>
    have hrd : (v :: t).reverse.dropLast = t.reverse := by
      rw [List.reverse_cons, List.dropLast_concat]
    rw [hrd, foldl_insertAt t.reverse tour (i + 1) (by omega)]
    simp

theorem splice_eq_middle {tour : List V} {i : Nat} {vt : List V} {v : V}
    (hi : i < tour.length) (hv : tour.get ⟨i, hi⟩ = v)
    (hhead : vt.head? = some v) :
    splice tour i vt = tour.take i ++ vt ++ tour.drop (i + 1) := by
  cases vt with
  | nil => simp at hhead
  | cons x t =>
    simp only [List.head?_cons, Option.some.injEq] at hhead
    rw [splice_eq (by simp) hi, take_succ_get tour i hi, hv]
    simp [hhead, List.append_assoc]

theorem tour_split {tour : List V} {i : Nat} (hi : i < tour.length) :
    tour = tour.take i ++ tour.get ⟨i, hi⟩ :: tour.drop (i + 1) := by
  conv_lhs => rw [← List.take_append_drop i tour]
  rw [List.drop_eq_getElem_cons hi]
  rfl

theorem vt_decomp {vt : List V} {v : V} (hhead : vt.head? = some v)
    (hlast : vt.getLast? = some v) (hlen : 2 ≤ vt.length) :
    ∃ m, vt = v :: m ++ [v] := by
  cases vt with
  | nil => simp at hhead
  | cons x t =>
    have hx : x = v := by simpa using hhead
    subst hx
    cases t with
    | nil => simp at hlen
    | cons y r =>
      have hcc : (x :: y :: r).getLast? = (y :: r).getLast? :=
        List.getLast?_cons_cons
      have hlast2 : (y :: r).getLast? = some x := by
        rw [← hcc]
        exact hlast
      have := List.dropLast_append_getLast? x (Option.mem_def.2 hlast2)
      exact ⟨(y :: r).dropLast, congrArg (List.cons x) this.symm⟩

theorem splice_walkPairs {tour : List V} {i : Nat} {vt : List V} {v : V}
    (hi : i < tour.length) (hv : tour.get ⟨i, hi⟩ = v)
    (hhead : vt.head? = some v) (hlast : vt.getLast? = some v)
    (hlen : 2 ≤ vt.length) :
    walkPairs (splice tour i vt) = walkPairs tour + walkPairs vt := by
  obtain ⟨m, hm⟩ := vt_decomp hhead hlast hlen
  rw [splice_eq_middle hi hv hhead]
  have htour : tour = tour.take i ++ v :: tour.drop (i + 1) := by
    conv_lhs => rw [tour_split hi]
    rw [hv]
  conv_rhs => rw [htour]
  rw [walkPairs_middle v (tour.drop (i + 1)) (tour.take i)]
  have hsplit : tour.take i ++ vt ++ tour.drop (i + 1) =
      tour.take i ++ v :: (m ++ v :: tour.drop (i + 1)) := by
    rw [hm]
    simp [List.append_assoc]
  rw [hsplit, walkPairs_middle v (m ++ v :: tour.drop (i + 1)) (tour.take i)]
  have hmid : walkPairs (v :: (m ++ v :: tour.drop (i + 1))) =
      walkPairs ((v :: m) ++ v :: tour.drop (i + 1)) := by rfl
  rw [hmid, walkPairs_middle v (tour.drop (i + 1)) (v :: m)]
  have hvt : walkPairs vt = walkPairs ((v :: m) ++ [v]) := by rw [hm]
  rw [hvt]
  abel

theorem splice_length {tour : List V} {i : Nat} {vt : List V}
    (hvt : 2 ≤ vt.length) (hi : i < tour.length) :
    (splice tour i vt).length + 1 = tour.length + vt.length := by
  rw [splice_eq (by intro hh; rw [hh] at hvt; simp at hvt) hi]
  simp only [List.length_append, List.length_take, List.length_drop,
    List.length_tail]
  omega

theorem splice_head {tour : List V} {i : Nat} {vt : List V} {v : V}
    (hi : i < tour.length) (hv : tour.get ⟨i, hi⟩ = v)
    (hhead : vt.head? = some v) :
    (splice tour i vt).head? = tour.head? := by
  rw [splice_eq_middle hi hv hhead]
  cases i with
  | zero =>
    simp only [List.take_zero, List.nil_append]
    cases tour with
    | nil => simp at hi
    | cons t0 r =>
      have : t0 = v := by simpa using hv
      cases vt with
      | nil => simp at hhead
      | cons x t =>
        simp only [List.head?_cons, Option.some.injEq] at hhead
        simp [List.head?_cons, hhead, this]
  | succ j =>
    cases tour with
    | nil => simp at hi
    | cons t0 r => simp [List.take_succ_cons]

theorem getLast?_drop_of_ne_nil {l : List V} {n : Nat} (h : l.drop n ≠ []) :
    (l.drop n).getLast? = l.getLast? := by
  conv_rhs => rw [← List.take_append_drop n l]
  rw [List.getLast?_append_of_ne_nil _ h]

theorem splice_getLast {tour : List V} {i : Nat} {vt : List V} {v : V}
    (hi : i < tour.length) (hv : tour.get ⟨i, hi⟩ = v)
    (hhead : vt.head? = some v) (hlast : vt.getLast? = some v)
    (hlen : 2 ≤ vt.length) :
    (splice tour i vt).getLast? = tour.getLast? := by
  rw [splice_eq (by intro hh; rw [hh] at hlen; simp at hlen) hi]
  by_cases hdrop : tour.drop (i + 1) = []
  · rw [hdrop, List.append_nil]
    have htail : vt.tail ≠ [] := by
      cases vt with
      | nil => simp at hlen
      | cons x t =>
        cases t with
        | nil => simp at hlen
        | cons y r => simp
    rw [List.getLast?_append_of_ne_nil _ htail]
    have h1 : vt.tail.getLast? = some v := by
      cases vt with
      | nil => simp at hlen
      | cons x t =>
        cases t with
        | nil => simp at hlen
        | cons y r =>
          have hcc : (x :: y :: r).getLast? = (y :: r).getLast? :=
            List.getLast?_cons_cons
          simp only [List.tail_cons]
          rw [← hcc]
          exact hlast
    have h2 : tour.getLast? = some v := by
      have : tour = tour.take (i + 1) := by
        conv_lhs => rw [← List.take_append_drop (i + 1) tour]
        rw [hdrop, List.append_nil]
      rw [this, take_succ_get tour i hi, hv, List.getLast?_concat]
    rw [h1, h2]
  · rw [List.append_assoc, List.getLast?_append_of_ne_nil _
      (by simp [hdrop]), List.getLast?_append_of_ne_nil _ hdrop]
    exact getLast?_drop_of_ne_nil hdrop

/-! ### The outer splice loop -/

/-- All vertices currently have even remaining degree. -/
def EvenDegM (adj : Adj) : Prop := ∀ v : V, Even (degM adj v)

theorem balM_self_iff {adj : Adj} {v : V} : BalM adj v v ↔ EvenDegM adj := by
  constructor
  · intro hb u
    have := hb u
    rw [Nat.even_iff] at this ⊢
    split_ifs at this <;> omega
  · intro he u
    have := he u
    rw [Nat.even_iff] at this ⊢
    split_ifs <;> omega

theorem isKey_of_map_fst_eq {adj adj1 : Adj}
    (h : adj1.map Prod.fst = adj.map Prod.fst) (x : V) :
    isKey adj1 x ↔ isKey adj x := by
  rw [isKey_iff_mem_keys, isKey_iff_mem_keys, h]

theorem lk_ne_of_le {adj adj1 : Adj} {x : V} (hnd : KeysNodup adj)
    (hle : dirEdges adj1 ≤ dirEdges adj) (h : lk adj1 x ≠ []) :
    lk adj x ≠ [] := by
  obtain ⟨y, hy⟩ := List.exists_mem_of_ne_nil _ h
  have h1 : (x, y) ∈ dirEdges adj1 := mem_dirEdges_of_lk hy
  have h2 : (x, y) ∈ dirEdges adj := Multiset.mem_of_le hle h1
  have := mem_lk_of_dirEdges hnd h2
  intro hnil
  rw [hnil] at this
  simp at this

theorem hLoop_eq (fuel : Nat) (adj : Adj) (tour : List V) (i : Nat) :
    hLoop fuel adj tour i =
      if h : i < tour.length then
        match fuel with
        | 0 => none
        | f + 1 =>
          match lookupAdj adj (tour.get ⟨i, h⟩) with
          | none => none
          | some l =>
            if l.length ≠ 0 then
              match hierholzer_tour adj (tour.get ⟨i, h⟩) with
              | none => none
              | some (vt, adj1) => hLoop f adj1 (splice tour i vt) (i + 1)
            else hLoop f adj tour (i + 1)
      else some (tour, adj) := by
  cases fuel <;> rfl

theorem hLoop_sound : ∀ (fuel : Nat) (adj : Adj) (tour : List V) (i : Nat)
    (t' : List V) (adjF : Adj),
    hLoop fuel adj tour i = some (t', adjF) →
    t'.head? = tour.head? ∧ t'.getLast? = tour.getLast? ∧
    dirEdges adj + walkPairs tour = dirEdges adjF + walkPairs t' ∧
    adjF.map Prod.fst = adj.map Prod.fst ∧
    (SymmM adj → SymmM adjF) := by
  intro fuel
  induction fuel with
  | zero =>
    intro adj tour i t' adjF h
    rw [hLoop_eq] at h
    by_cases hi : i < tour.length
    · rw [dif_pos hi] at h
      simp at h
    · rw [dif_neg hi] at h
      simp only [Option.some.injEq, Prod.mk.injEq] at h
      rw [← h.1, ← h.2]
      exact ⟨rfl, rfl, rfl, rfl, fun hs => hs⟩
  | succ f ih =>
    intro adj tour i t' adjF h
    rw [hLoop_eq] at h
    by_cases hi : i < tour.length
    · rw [dif_pos hi] at h
      cases hlk : lookupAdj adj (tour.get ⟨i, hi⟩) with
      | none => rw [hlk] at h; simp at h
      | some l =>
        rw [hlk] at h
        simp only [] at h
        by_cases hl0 : l.length ≠ 0
        · rw [if_pos hl0] at h
          cases hsub : hierholzer_tour adj (tour.get ⟨i, hi⟩) with
          | none => rw [hsub] at h; simp at h
          | some r =>
            rcases r with ⟨vt, adj1⟩
            rw [hsub] at h
            simp only [] at h
            obtain ⟨hhd, hlast, hlen, hdir, hkeys, _, _, hsym, _, _⟩ :=
              hierholzer_tour_sound hsub
            obtain ⟨ihhd, ihlast, ihdir, ihkeys, ihsym⟩ :=
              ih adj1 (splice tour i vt) (i + 1) t' adjF h
            have hwp : walkPairs (splice tour i vt) =
                walkPairs tour + walkPairs vt :=
              splice_walkPairs hi rfl hhd hlast hlen
            refine ⟨?_, ?_, ?_, ?_, ?_⟩
            · rw [ihhd, splice_head hi rfl hhd]
            · rw [ihlast, splice_getLast hi rfl hhd hlast hlen]
            · rw [hdir]
              have := ihdir
              rw [hwp] at this
              have goal : walkPairs vt + dirEdges adj1 + walkPairs tour =
                  dirEdges adj1 + (walkPairs tour + walkPairs vt) := by abel
              rw [goal, this]
            · rw [ihkeys, hkeys]
            · intro hs
              exact ihsym (hsym hs)
        · rw [if_neg hl0] at h
          obtain ⟨ihhd, ihlast, ihdir, ihkeys, ihsym⟩ :=
            ih adj tour (i + 1) t' adjF h
          exact ⟨ihhd, ihlast, ihdir, ihkeys, ihsym⟩
    · rw [dif_neg hi] at h
      simp only [Option.some.injEq, Prod.mk.injEq] at h
      rw [← h.1, ← h.2]
      exact ⟨rfl, rfl, rfl, rfl, fun hs => hs⟩

theorem hLoop_success : ∀ (fuel : Nat) (adj : Adj) (tour : List V) (i : Nat),
    KeysNodup adj → SymmM adj → LoopsEvenM adj → EvenDegM adj →
    (∀ x ∈ tour, isKey adj x) →
    (∀ x ∈ tour.take i, lk adj x ≠ [] → x ∈ tour.drop i) →
    tour.length - i + adjSize adj ≤ fuel →
    ∃ t' adjF, hLoop fuel adj tour i = some (t', adjF) ∧
      (∀ x ∈ t', lk adjF x = []) := by
  intro fuel
  induction fuel with
  | zero =>
    intro adj tour i hnd hsym hloops hev htk hP hfuel
    have hni : ¬ i < tour.length := by omega
    refine ⟨tour, adj, by rw [hLoop_eq, dif_neg hni], ?_⟩
    intro x hx
    by_contra hne
    have hx2 : x ∈ tour.take i := by
      rw [List.take_of_length_le (by omega)]
      exact hx
    have := hP x hx2 hne
    rw [List.drop_eq_nil_of_le (by omega)] at this
    simp at this
  | succ f ih =>
    intro adj tour i hnd hsym hloops hev htk hP hfuel
    by_cases hi : i < tour.length
    · have hvmem : tour.get ⟨i, hi⟩ ∈ tour := List.get_mem tour i hi
      have hkey := htk _ hvmem
      obtain ⟨l, hlk⟩ := isKey_lookup hkey
      have hlkv : lk adj (tour.get ⟨i, hi⟩) = l := by
        unfold lk
        rw [hlk]
        rfl
      have hdropi : tour.drop i = tour.get ⟨i, hi⟩ :: tour.drop (i + 1) := by
        rw [List.drop_eq_getElem_cons hi]
        rfl
      by_cases hl0 : l.length ≠ 0
      · -- the scanned vertex still has unused edges: extract and splice
        have hne : lk adj (tour.get ⟨i, hi⟩) ≠ [] := by
          rw [hlkv]
          intro hh
          rw [hh] at hl0
          simp at hl0
        obtain ⟨r, hsub⟩ := hierholzer_tour_success hnd hsym hloops
          (balM_self_iff.2 hev) hne
        rcases r with ⟨vt, adj1⟩
        have heq : hLoop (f + 1) adj tour i =
            hLoop f adj1 (splice tour i vt) (i + 1) := by
          rw [hLoop_eq, dif_pos hi]
          simp only []
          rw [hlk]
          simp only []
          rw [if_pos hl0, hsub]
        obtain ⟨hhd, hlast, hlen, hdir, hkeys, hvtkeys, hbal, hsymp, hloopsp, hndp⟩ :=
          hierholzer_tour_sound hsub
        obtain ⟨m, hm⟩ := vt_decomp hhd hlast hlen
        have hsplice : splice tour i vt =
            tour.take i ++ vt ++ tour.drop (i + 1) := splice_eq_middle hi rfl hhd
        have hAlen : (tour.take i).length = i := by
          rw [List.length_take]
          omega
        have hform : splice tour i vt = tour.take i ++
            (tour.get ⟨i, hi⟩ :: (m ++ [tour.get ⟨i, hi⟩] ++ tour.drop (i + 1))) := by
          rw [hsplice, hm]
          simp [List.append_assoc]
        have hip1 : i + 1 = (tour.take i).length + 1 := by omega
        have htake1 : (splice tour i vt).take (i + 1) =
            tour.take i ++ [tour.get ⟨i, hi⟩] := by
          rw [hform, hip1, List.take_append 1]
          rfl
        have hdrop1 : (splice tour i vt).drop (i + 1) =
            m ++ [tour.get ⟨i, hi⟩] ++ tour.drop (i + 1) := by
          rw [hform, hip1, List.drop_append 1]
          rfl
        -- invariants after the sub-tour extraction
        have hnd1 : KeysNodup adj1 := hndp hnd
        have hsym1 : SymmM adj1 := hsymp hsym
        have hloops1 : LoopsEvenM adj1 := hloopsp hloops
        have hev1 : EvenDegM adj1 :=
          balM_self_iff.1 (hbal (balM_self_iff.2 hev))
        have hle1 : dirEdges adj1 ≤ dirEdges adj := by
          rw [hdir]
          exact Multiset.le_add_left _ _
        have htk1 : ∀ x ∈ splice tour i vt, isKey adj1 x := by
          intro x hx
          rw [hsplice] at hx
          rw [isKey_of_map_fst_eq hkeys]
          simp only [List.mem_append] at hx
          rcases hx with (hx | hx) | hx
          · exact htk x (List.take_subset i tour hx)
          · exact hvtkeys x hx
          · exact htk x (List.drop_subset (i + 1) tour hx)
        have hP1 : ∀ x ∈ (splice tour i vt).take (i + 1),
            lk adj1 x ≠ [] → x ∈ (splice tour i vt).drop (i + 1) := by
          intro x hx hxne
          rw [htake1] at hx
          rw [hdrop1]
          simp only [List.mem_append, List.mem_singleton] at hx ⊢
          rcases hx with hx | hx
          · have hxadj : lk adj x ≠ [] := lk_ne_of_le hnd hle1 hxne
            have := hP x hx hxadj
            rw [hdropi] at this
            rcases List.mem_cons.1 this with hxv | hxB
            · exact Or.inl (Or.inr hxv)
            · exact Or.inr hxB
          · exact Or.inl (Or.inr hx)
        have hsize1 := hierholzer_tour_adjSize hsub
        have hslen := splice_length hlen hi
        have hfuel1 : (splice tour i vt).length - (i + 1) + adjSize adj1 ≤ f := by
          omega
        obtain ⟨t', adjF, hrun, hexh⟩ :=
          ih adj1 (splice tour i vt) (i + 1) hnd1 hsym1 hloops1 hev1 htk1 hP1 hfuel1
        exact ⟨t', adjF, by rw [heq]; exact hrun, hexh⟩
      · -- the scanned vertex is exhausted: move to the next position
        have hlnil : l = [] := by
          simp only [Ne, not_not] at hl0
          exact List.eq_nil_of_length_eq_zero hl0
        have heq : hLoop (f + 1) adj tour i = hLoop f adj tour (i + 1) := by
          rw [hLoop_eq, dif_pos hi]
          simp only []
          rw [hlk]
          simp only []
          rw [if_neg hl0]
        have hP1 : ∀ x ∈ tour.take (i + 1), lk adj x ≠ [] → x ∈ tour.drop (i + 1) := by
          intro x hx hxne
          rw [take_succ_get tour i hi] at hx
          rcases List.mem_append.1 hx with hx | hx
          · have := hP x hx hxne
            rw [hdropi] at this
            rcases List.mem_cons.1 this with hxv | hxB
            · exfalso
              rw [hxv, hlkv, hlnil] at hxne
              exact hxne rfl
            · exact hxB
          · exfalso
            rw [List.mem_singleton.1 hx, hlkv, hlnil] at hxne
            exact hxne rfl
        obtain ⟨t', adjF, hrun, hexh⟩ :=
          ih adj tour (i + 1) hnd hsym hloops hev htk hP1 (by omega)
        exact ⟨t', adjF, by rw [heq]; exact hrun, hexh⟩
    · refine ⟨tour, adj, by rw [hLoop_eq, dif_neg hi], ?_⟩
      intro x hx
      by_contra hne
      have hx2 : x ∈ tour.take i := by
        rw [List.take_of_length_le (by omega)]
        exact hx
      have := hP x hx2 hne
      rw [List.drop_eq_nil_of_le (by omega)] at this
      simp at this

theorem hLoop_fuel_succ : ∀ (f : Nat) (adj : Adj) (tour : List V) (i : Nat),
    tour.length - i + adjSize adj ≤ f →
    hLoop f adj tour i = hLoop (f + 1) adj tour i := by
  intro f
  induction f with
  | zero =>
    intro adj tour i hb
    have hni : ¬ i < tour.length := by omega
    rw [hLoop_eq, hLoop_eq, dif_neg hni, dif_neg hni]
  | succ f ih =>
    intro adj tour i hb
    by_cases hi : i < tour.length
    · rw [hLoop_eq, hLoop_eq, dif_pos hi, dif_pos hi]
      simp only []
      cases hlk : lookupAdj adj (tour.get ⟨i, hi⟩) with
      | none => rfl
      | some l =>
        simp only []
        by_cases hl0 : l.length ≠ 0
        · rw [if_pos hl0, if_pos hl0]
          cases hsub : hierholzer_tour adj (tour.get ⟨i, hi⟩) with
          | none => rfl
          | some r =>
            rcases r with ⟨vt, adj1⟩
            simp only []
            obtain ⟨hhd, hlast, hlen, _, _, _, _, _, _, _⟩ :=
              hierholzer_tour_sound hsub
            have hsize := hierholzer_tour_adjSize hsub
            have hslen := splice_length hlen hi
            exact ih adj1 (splice tour i vt) (i + 1) (by omega)
        · rw [if_neg hl0, if_neg hl0]
          exact ih adj tour (i + 1) (by omega)
    · rw [hLoop_eq, hLoop_eq, dif_neg hi, dif_neg hi]

theorem hLoop_fuel_add (d : Nat) : ∀ (f : Nat) (adj : Adj) (tour : List V)
    (i : Nat), tour.length - i + adjSize adj ≤ f →
    hLoop f adj tour i = hLoop (f + d) adj tour i := by
  induction d with
  | zero => intro f adj tour i _; rfl
  | succ d ih =>
    intro f adj tour i hb
    rw [ih f adj tour i hb]
    have heq : f + (d + 1) = (f + d) + 1 := by omega
    rw [heq]
    exact hLoop_fuel_succ (f + d) adj tour i (by omega)

/-- The fuel given to the outer loop is irrelevant as soon as it covers the
number of remaining scan positions plus the store size: every iteration
either advances the scan or strictly consumes store entries, so the loop
always exits (or fails like Python) before such a fuel runs out. -/
theorem hLoop_fuel_irrel (f1 f2 : Nat) (adj : Adj) (tour : List V) (i : Nat)
    (h1 : tour.length - i + adjSize adj ≤ f1)
    (h2 : tour.length - i + adjSize adj ≤ f2) :
    hLoop f1 adj tour i = hLoop f2 adj tour i := by
  rcases le_total f1 f2 with hle | hle
  · have heq : f2 = f1 + (f2 - f1) := by omega
    rw [heq]
    exact hLoop_fuel_add (f2 - f1) f1 adj tour i h1
  · have heq : f1 = f2 + (f1 - f2) := by omega
    rw [heq]
    exact (hLoop_fuel_add (f1 - f2) f2 adj tour i h2).symm

/-! ### All edges are consumed at termination (connectivity argument) -/

theorem reach_target {adjF : Adj} {u b : V} (hndF : KeysNodup adjF)
    (hsymF : SymmM adjF) (hne : lk adjF u ≠ [])
    (h : Reach adjF u b) : lk adjF b ≠ [] := by
  induction h with
  | refl => exact hne
  | tail hab hbc ih =>
    rename_i b' c
    have h1 : (b', c) ∈ dirEdges adjF := mem_dirEdges_of_lk hbc
    have h2 : (c, b') ∈ dirEdges adjF := by
      rw [← Multiset.count_pos, hsymF c b']
      exact Multiset.count_pos.2 h1
    have := mem_lk_of_dirEdges hndF h2
    intro hnil
    rw [hnil] at this
    simp at this

theorem final_empty {adj0 adjF : Adj} {tourF : List V} {s : V}
    (hndF : KeysNodup adjF) (hsymF : SymmM adjF)
    (hkeysF : adjF.map Prod.fst = adj0.map Prod.fst)
    (hconn : ConnectedAdj adj0)
    (hacc : dirEdges adj0 = dirEdges adjF + walkPairs tourF)
    (hexh : ∀ v ∈ tourF, lk adjF v = [])
    (hs : s ∈ tourF) (hsk : isKey adj0 s) :
    dirEdges adjF = 0 := by
  have hall : ∀ u, lk adjF u = [] := by
    intro u
    by_contra hne
    -- every vertex reachable from u in the original store is still
    -- reachable from u in the final store
    have no_escape : ∀ b, Reach adj0 u b → Reach adjF u b := by
      intro b h
      induction h with
      | refl => exact Relation.ReflTransGen.refl
      | tail hab hbc ih =>
        rename_i b' c
        have hmem : (b', c) ∈ dirEdges adj0 := mem_dirEdges_of_lk hbc
        rw [hacc] at hmem
        rcases Multiset.mem_add.1 hmem with hm | hm
        · exact ih.tail (mem_lk_of_dirEdges hndF hm)
        · exfalso
          have hb' : b' ∈ tourF := (walkPairs_mem hm).1
          have := reach_target hndF hsymF hne ih
          exact this (hexh b' hb')
    have hku : isKey adj0 u := by
      rw [← isKey_of_map_fst_eq hkeysF]
      exact isKey_of_lk_ne hne
    have hreach := no_escape s (hconn u s hku hsk)
    exact (reach_target hndF hsymF hne hreach) (hexh s hs)
  exact dirEdges_eq_zero hndF hall

/-! ### Master correctness theorem for hierholzer -/

theorem hierholzer_main {g : Graph} (hwf : GraphWF g) (hconn : Connected g)
    (hev : EvenDeg g.adj_list) (hedge : HasEdge g) :
    ∃ tour adjF, hierholzerFull g = some (tour, adjF) ∧
      tour.head? = g.vertices.head? ∧ tour.getLast? = g.vertices.head? ∧
      walkPairs tour = dirEdges g.adj_list ∧
      2 ≤ tour.length ∧
      (∀ x ∈ tour, lk adjF x = []) ∧ dirEdges adjF = 0 := by
  obtain ⟨⟨hnd, hsymm, hloops⟩, hvk, hkv⟩ := hwf
  have hsymM : SymmM g.adj_list := symmM_of_symm hnd hsymm
  have hloopsM : LoopsEvenM g.adj_list := loopsEvenM_of hnd hloops
  have hevM : EvenDegM g.adj_list := by
    intro v
    rw [degM_eq hnd]
    exact hev v
  -- some vertex has an unused edge
  obtain ⟨p, hp⟩ := Multiset.exists_mem_of_ne_zero hedge
  rcases p with ⟨u, w⟩
  have hku : isKey g.adj_list u := isKey_of_dirEdges hp
  have hlku : lk g.adj_list u ≠ [] := by
    have := mem_lk_of_dirEdges hnd hp
    intro hnil
    rw [hnil] at this
    simp at this
  -- hence the vertex list is nonempty
  obtain ⟨lu, hlu⟩ := isKey_lookup hku
  have humem : u ∈ g.vertices := hkv (u, lu) (lookupAdj_mem hlu)
  cases hverts : g.vertices with
  | nil => rw [hverts] at humem; simp at humem
  | cons v0 rest =>
    have hkey0 : isKey g.adj_list v0 := by
      apply hvk
      rw [hverts]
      exact List.mem_cons_self _ _
    -- the start vertex has an unused edge (using connectivity)
    have hlk0 : lk g.adj_list v0 ≠ [] := by
      have hreach : Reach g.adj_list v0 u := hconn v0 u hkey0 hku
      rcases Relation.ReflTransGen.cases_head hreach with heq | ⟨c, hc, _⟩
      · rw [heq]
        exact hlku
      · intro hnil
        rw [hnil] at hc
        simp at hc
    obtain ⟨r, hsub⟩ := hierholzer_tour_success hnd hsymM hloopsM
      (balM_self_iff.2 hevM) hlk0
    rcases r with ⟨tour0, adj1⟩
    obtain ⟨hhd0, hlast0, hlen0, hdir0, hkeys0, htk0, hbal0, hsym0, hloops0, hnd0⟩ :=
      hierholzer_tour_sound hsub
    have hnd1 : KeysNodup adj1 := hnd0 hnd
    have hsym1 : SymmM adj1 := hsym0 hsymM
    have hloops1 : LoopsEvenM adj1 := hloops0 hloopsM
    have hev1 : EvenDegM adj1 :=
      balM_self_iff.1 (hbal0 (balM_self_iff.2 hevM))
    have htk1 : ∀ x ∈ tour0, isKey adj1 x := by
      intro x hx
      rw [isKey_of_map_fst_eq hkeys0]
      exact htk0 x hx
    have hP0 : ∀ x ∈ tour0.take 0, lk adj1 x ≠ [] → x ∈ tour0.drop 0 := by
      intro x hx
      simp at hx
    obtain ⟨tourF, adjF, hrun, hexh⟩ := hLoop_success
      (tour0.length + adjSize adj1) adj1 tour0 0 hnd1 hsym1 hloops1 hev1
      htk1 hP0 (by omega)
    have hfull : hierholzerFull g = some (tourF, adjF) := by
      unfold hierholzerFull
      rw [hverts]
      simp only []
      rw [hsub]
      simp only []
      exact hrun
    obtain ⟨hhdF, hlastF, hdirF, hkeysF, hsymF⟩ :=
      hLoop_sound _ adj1 tour0 0 tourF adjF hrun
    have hndF : KeysNodup adjF := by
      unfold KeysNodup
      rw [hkeysF, hkeys0]
      exact hnd
    have hacc : dirEdges g.adj_list = dirEdges adjF + walkPairs tourF := by
      rw [hdir0]
      have := hdirF
      have hcomm : walkPairs tour0 + dirEdges adj1 =
          dirEdges adj1 + walkPairs tour0 := by abel
      rw [hcomm, this]
    have hv0mem : v0 ∈ tourF := by
      apply mem_of_head?
      rw [hhdF, hhd0]
    have hzero : dirEdges adjF = 0 :=
      final_empty hndF (hsymF hsym1) (hkeysF.trans hkeys0) hconn hacc hexh
        hv0mem hkey0
    have hwalk : walkPairs tourF = dirEdges g.adj_list := by
      rw [hacc, hzero, zero_add]
    have hlenF : 2 ≤ tourF.length := by
      have hcard := congrArg Multiset.card hwalk
      rw [walkPairs_card] at hcard
      have hpos : Multiset.card (dirEdges g.adj_list) ≠ 0 := by
        intro hc
        exact hedge (Multiset.card_eq_zero.1 hc)
      omega
    refine ⟨tourF, adjF, hfull, ?_, ?_, hwalk, hlenF, hexh, hzero⟩
    · rw [hhdF, hhd0]
      rfl
    · rw [hlastF, hlast0]
      rfl

/-! ### Decidable well-formedness checks for concrete graphs -/

/-- Entry-wise symmetry check (equivalent to `Symm`, but quantifying only
over stored entries, hence decidable on concrete stores). -/
def symmOK (adj : Adj) : Prop :=
  ∀ e ∈ adj, ∀ w ∈ e.2, (lk adj e.1).count w = (lk adj w).count e.1

instance (adj : Adj) : Decidable (symmOK adj) := by
  unfold symmOK
  infer_instance

/-- Entry-wise check that self-loop entries are paired. -/
def loopsOK (adj : Adj) : Prop := ∀ e ∈ adj, Even (e.2.count e.1)

instance (adj : Adj) : Decidable (loopsOK adj) := by
  unfold loopsOK
  infer_instance

/-- Entry-wise even-degree check. -/
def evenOK (adj : Adj) : Prop := ∀ e ∈ adj, Even e.2.length

instance (adj : Adj) : Decidable (evenOK adj) := by
  unfold evenOK
  infer_instance

theorem symm_of_symmOK {adj : Adj} (h : symmOK adj) : Symm adj := by
  intro u w
  by_cases hu : w ∈ lk adj u
  · have hne : lk adj u ≠ [] := by
      intro hh
      rw [hh] at hu
      simp at hu
    exact h (u, lk adj u) (lookupAdj_mem (lookup_eq_some_lk hne)) w hu
  · have h0 : (lk adj u).count w = 0 := by
      rw [List.count_eq_zero]
      exact hu
    rw [h0]
    by_cases hw : u ∈ lk adj w
    · have hne : lk adj w ≠ [] := by
        intro hh
        rw [hh] at hw
        simp at hw
      have := h (w, lk adj w) (lookupAdj_mem (lookup_eq_some_lk hne)) u hw
      rw [h0] at this
      exact this.symm
    · rw [List.count_eq_zero.2 hw]

theorem loopsEven_of_loopsOK {adj : Adj} (h : loopsOK adj) : LoopsEven adj := by
  intro v
  cases hl : lookupAdj adj v with
  | none => simp [lk, hl]
  | some l =>
    have : lk adj v = l := by rw [lk, hl]; rfl
    rw [this]
    exact h (v, l) (lookupAdj_mem hl)

theorem evenDeg_of_evenOK {adj : Adj} (h : evenOK adj) : EvenDeg adj := by
  intro v
  cases hl : lookupAdj adj v with
  | none => simp [lk, hl]
  | some l =>
    have : lk adj v = l := by rw [lk, hl]; rfl
    rw [this]
    exact h (v, l) (lookupAdj_mem hl)

theorem graphWF_of_checks {g : Graph} (h1 : KeysNodup g.adj_list)
    (h2 : symmOK g.adj_list) (h3 : loopsOK g.adj_list)
    (h4 : ∀ v ∈ g.vertices, isKey g.adj_list v)
    (h5 : ∀ e ∈ g.adj_list, e.1 ∈ g.vertices) : GraphWF g :=
  ⟨⟨h1, symm_of_symmOK h2, loopsEven_of_loopsOK h3⟩, h4, h5⟩

/-! ### Concrete graphs used as witnesses and counterexamples -/

/-- The 4-cycle a-b-c-d (test graph 3 of the source). -/
def sqG : Graph :=
  ⟨["a", "b", "c", "d"],
   [("a", ["b", "d"]), ("b", ["a", "c"]), ("c", ["b", "d"]), ("d", ["a", "c"])]⟩

/-- A connected graph with a single vertex and no edge at all: every vertex
(trivially) has even degree, yet `hierholzer` raises (pop from an empty
list). -/
def gTriv : Graph := ⟨["a"], [("a", [])]⟩

/-- A store holding the single path edge a-b: both endpoints have odd
degree. -/
def adjPath : Adj := [("a", ["b"]), ("b", ["a"])]

/-- A store with one isolated vertex. -/
def adjTriv : Adj := [("a", [])]

theorem connected_sqG : Connected sqG := by
  have ra_b : Reach sqG.adj_list "a" "b" := Relation.ReflTransGen.single (by decide)
  have ra_d : Reach sqG.adj_list "a" "d" := Relation.ReflTransGen.single (by decide)
  have ra_c : Reach sqG.adj_list "a" "c" := ra_b.tail (by decide)
  have rb_a : Reach sqG.adj_list "b" "a" := Relation.ReflTransGen.single (by decide)
  have rb_c : Reach sqG.adj_list "b" "c" := Relation.ReflTransGen.single (by decide)
  have rb_d : Reach sqG.adj_list "b" "d" := rb_c.tail (by decide)
  have rc_b : Reach sqG.adj_list "c" "b" := Relation.ReflTransGen.single (by decide)
  have rc_d : Reach sqG.adj_list "c" "d" := Relation.ReflTransGen.single (by decide)
  have rc_a : Reach sqG.adj_list "c" "a" := rc_b.tail (by decide)
  have rd_a : Reach sqG.adj_list "d" "a" := Relation.ReflTransGen.single (by decide)
  have rd_c : Reach sqG.adj_list "d" "c" := Relation.ReflTransGen.single (by decide)
  have rd_b : Reach sqG.adj_list "d" "b" := rd_a.tail (by decide)
  intro u w hu hw
  have hu2 : u = "a" ∨ u = "b" ∨ u = "c" ∨ u = "d" := by
    have := isKey_iff_mem_keys.1 hu
    have hkeys : sqG.adj_list.map Prod.fst = ["a", "b", "c", "d"] := rfl
    rw [hkeys] at this
    simpa using this
  have hw2 : w = "a" ∨ w = "b" ∨ w = "c" ∨ w = "d" := by
    have := isKey_iff_mem_keys.1 hw
    have hkeys : sqG.adj_list.map Prod.fst = ["a", "b", "c", "d"] := rfl
    rw [hkeys] at this
    simpa using this
  rcases hu2 with h | h | h | h <;> subst h <;>
    rcases hw2 with h | h | h | h <;> subst h <;>
    first
      | exact Relation.ReflTransGen.refl
      | exact ra_b
      | exact ra_c
      | exact ra_d
      | exact rb_a
      | exact rb_c
      | exact rb_d
      | exact rc_a
      | exact rc_b
      | exact rc_d
      | exact rd_a
      | exact rd_b
      | exact rd_c

theorem connected_gTriv : Connected gTriv := by
  intro u w hu hw
  have hkeys : gTriv.adj_list.map Prod.fst = ["a"] := rfl
  have hu2 : u = "a" := by
    have := isKey_iff_mem_keys.1 hu
    rw [hkeys] at this
    simpa using this
  have hw2 : w = "a" := by
    have := isKey_iff_mem_keys.1 hw
    rw [hkeys] at this
    simpa using this
  rw [hu2, hw2]
  exact Relation.ReflTransGen.refl

theorem connected_adjTriv : ConnectedAdj adjTriv := by
  intro u w hu hw
  have hkeys : adjTriv.map Prod.fst = ["a"] := rfl
  have hu2 : u = "a" := by
    have := isKey_iff_mem_keys.1 hu
    rw [hkeys] at this
    simpa using this
  have hw2 : w = "a" := by
    have := isKey_iff_mem_keys.1 hw
    rw [hkeys] at this
    simpa using this
  rw [hu2, hw2]
  exact Relation.ReflTransGen.refl

instance (g : Graph) : Decidable (HasEdge g) := by
  unfold HasEdge
  infer_instance

instance (adj : Adj) : Decidable (KeysNodup adj) := by
  unfold KeysNodup
  infer_instance

theorem hierholzerFull_inv {g : Graph} {tour : List V} {adjF : Adj}
    (h : hierholzerFull g = some (tour, adjF)) :
    ∃ v0 rest tour0 adj1, g.vertices = v0 :: rest ∧
      hierholzer_tour g.adj_list v0 = some (tour0, adj1) ∧
      hLoop (tour0.length + adjSize adj1) adj1 tour0 0 = some (tour, adjF) := by
  unfold hierholzerFull at h
  cases hverts : g.vertices with
  | nil => rw [hverts] at h; simp at h
  | cons v0 rest =>
    rw [hverts] at h
    simp only [] at h
    cases hsub : hierholzer_tour g.adj_list v0 with
    | none => rw [hsub] at h; simp at h
    | some r =>
      rcases r with ⟨tour0, adj1⟩
      rw [hsub] at h
      simp only [] at h
      exact ⟨v0, rest, tour0, adj1, rfl, hsub, h⟩

/-! ### Claim theorems -/

/-- C1 (amended): for every connected input graph with at least one edge in
which every vertex has even degree, the tour returned by hierholzer consumes
exactly the graph's symmetric edge multiset: its consecutive pairs (with
their reverses) are exactly the store's directed entries, and hence its
consecutive pairs taken as undirected edges, counted twice, are exactly the
directed entries mapped to undirected edges — every original edge appears
exactly once, none missing, no duplicates.  (The tour is closed, so its
consecutive pairs already include the wrap from last to first.) -/
theorem hierholzer_edge_multiset (g : Graph) (hwf : GraphWF g)
    (hconn : Connected g) (hev : EvenDeg g.adj_list) (hedge : HasEdge g) :
    ∃ tour, hierholzer g = some tour ∧
      walkPairs tour = dirEdges g.adj_list ∧
      tourEdges tour + tourEdges tour =
        Multiset.map Sym2.mk (dirEdges g.adj_list) := by
  obtain ⟨tour, adjF, hfull, _, _, hwalk, _, _, _⟩ :=
    hierholzer_main hwf hconn hev hedge
  refine ⟨tour, ?_, hwalk, ?_⟩
  · unfold hierholzer
    rw [hfull]
    rfl
  · rw [← hwalk, walkPairs_map_sym2]

/-- C1 witness: the amended claim holds on the 4-cycle. -/
theorem hierholzer_edge_multiset_witness :
    ∃ tour, hierholzer sqG = some tour ∧
      walkPairs tour = dirEdges sqG.adj_list ∧
      tourEdges tour + tourEdges tour =
        Multiset.map Sym2.mk (dirEdges sqG.adj_list) :=
  hierholzer_edge_multiset sqG
    (graphWF_of_checks (by decide) (by decide) (by decide) (by decide) (by decide))
    connected_sqG (evenDeg_of_evenOK (by decide)) (by decide)

/-- C1 counterexample: the one-vertex edgeless graph is connected and has
all degrees even, yet hierholzer raises (models the Python IndexError from
popping an empty list) instead of returning a tour, so the claim fails
without the at-least-one-edge hypothesis. -/
theorem hierholzer_edge_multiset_cex :
    GraphWF gTriv ∧ Connected gTriv ∧ EvenDeg gTriv.adj_list ∧
    hierholzer gTriv = none :=
  ⟨graphWF_of_checks (by decide) (by decide) (by decide) (by decide) (by decide),
   connected_gTriv, evenDeg_of_evenOK (by decide), by decide⟩

/-- C2 (amended): for every connected input graph with at least one edge in
which every vertex has even degree, the returned tour is nonempty and its
first and last elements are equal. -/
theorem hierholzer_closed (g : Graph) (hwf : GraphWF g)
    (hconn : Connected g) (hev : EvenDeg g.adj_list) (hedge : HasEdge g) :
    ∃ tour, hierholzer g = some tour ∧ tour ≠ [] ∧
      tour.head? = tour.getLast? := by
  obtain ⟨tour, adjF, hfull, hhd, hlast, _, hlen, _, _⟩ :=
    hierholzer_main hwf hconn hev hedge
  refine ⟨tour, ?_, ?_, by rw [hhd, hlast]⟩
  · unfold hierholzer
    rw [hfull]
    rfl
  · intro hnil
    rw [hnil] at hlen
    simp at hlen

/-- C2 witness: the amended claim holds on the 4-cycle. -/
theorem hierholzer_closed_witness :
    ∃ tour, hierholzer sqG = some tour ∧ tour ≠ [] ∧
      tour.head? = tour.getLast? :=
  hierholzer_closed sqG
    (graphWF_of_checks (by decide) (by decide) (by decide) (by decide) (by decide))
    connected_sqG (evenDeg_of_evenOK (by decide)) (by decide)

/-- C2 counterexample: on the connected all-even one-vertex edgeless graph,
hierholzer returns no tour at all, so the claim fails without the
at-least-one-edge hypothesis. -/
theorem hierholzer_closed_cex :
    GraphWF gTriv ∧ Connected gTriv ∧ EvenDeg gTriv.adj_list ∧
    hierholzer gTriv = none :=
  ⟨graphWF_of_checks (by decide) (by decide) (by decide) (by decide) (by decide),
   connected_gTriv, evenDeg_of_evenOK (by decide), by decide⟩

/-- C3 (amended): for every connected input graph with at least one edge in
which every vertex has even degree and with edge multiset of size |E|
(`numEdges`, half the number of directed entries), the returned tour has
length |E| + 1. -/
theorem hierholzer_length (g : Graph) (hwf : GraphWF g)
    (hconn : Connected g) (hev : EvenDeg g.adj_list) (hedge : HasEdge g) :
    ∃ tour, hierholzer g = some tour ∧
      tour.length = numEdges g + 1 ∧
      2 * numEdges g = Multiset.card (dirEdges g.adj_list) := by
  obtain ⟨tour, adjF, hfull, _, _, hwalk, hlen, _, _⟩ :=
    hierholzer_main hwf hconn hev hedge
  have hcard := congrArg Multiset.card hwalk
  rw [walkPairs_card] at hcard
  refine ⟨tour, ?_, ?_, ?_⟩
  · unfold hierholzer
    rw [hfull]
    rfl
  · unfold numEdges
    omega
  · unfold numEdges
    omega

/-- C3 witness: the amended claim holds on the 4-cycle. -/
theorem hierholzer_length_witness :
    ∃ tour, hierholzer sqG = some tour ∧
      tour.length = numEdges sqG + 1 ∧
      2 * numEdges sqG = Multiset.card (dirEdges sqG.adj_list) :=
  hierholzer_length sqG
    (graphWF_of_checks (by decide) (by decide) (by decide) (by decide) (by decide))
    connected_sqG (evenDeg_of_evenOK (by decide)) (by decide)

/-- C3 counterexample: on the connected all-even one-vertex edgeless graph
(|E| = 0), hierholzer returns no tour at all instead of a sequence of length
1, so the claim fails without the at-least-one-edge hypothesis. -/
theorem hierholzer_length_cex :
    GraphWF gTriv ∧ Connected gTriv ∧ EvenDeg gTriv.adj_list ∧
    numEdges gTriv = 0 ∧ hierholzer gTriv = none :=
  ⟨graphWF_of_checks (by decide) (by decide) (by decide) (by decide) (by decide),
   connected_gTriv, evenDeg_of_evenOK (by decide), by decide, by decide⟩

/-- C4 (amended): for every well-formed adjacency store (distinct dict keys,
symmetric entries, paired self-loops) in which every vertex has even
remaining degree, and every starting vertex s with at least one unused
incident edge, hierholzer_tour returns a closed walk with first element =
last element = s, and the traversal removes exactly one occurrence of each
traversed edge from both endpoints' entries: the store loses exactly the
multiset of directed step pairs of the walk. -/
theorem hierholzer_tour_contract (adj : Adj) (s : V) (hnd : KeysNodup adj)
    (hsym : Symm adj) (hle : LoopsEven adj) (hev : EvenDeg adj)
    (hne : lk adj s ≠ []) :
    ∃ vt adj', hierholzer_tour adj s = some (vt, adj') ∧
      vt.head? = some s ∧ vt.getLast? = some s ∧
      dirEdges adj = walkPairs vt + dirEdges adj' := by
  obtain ⟨r, hsub⟩ := hierholzer_tour_success hnd (symmM_of_symm hnd hsym)
    (loopsEvenM_of hnd hle)
    (balM_self_iff.2 (by intro v; rw [degM_eq hnd]; exact hev v)) hne
  rcases r with ⟨vt, adj'⟩
  obtain ⟨hhd, hlast, _, hdir, _, _, _, _, _, _⟩ := hierholzer_tour_sound hsub
  exact ⟨vt, adj', hsub, hhd, hlast, hdir⟩

/-- C4 witness: the amended claim holds on the 4-cycle's store started at
vertex a. -/
theorem hierholzer_tour_contract_witness :
    ∃ vt adj', hierholzer_tour sqG.adj_list "a" = some (vt, adj') ∧
      vt.head? = some "a" ∧ vt.getLast? = some "a" ∧
      dirEdges sqG.adj_list = walkPairs vt + dirEdges adj' :=
  hierholzer_tour_contract sqG.adj_list "a" (by decide)
    (symm_of_symmOK (by decide)) (loopsEven_of_loopsOK (by decide))
    (evenDeg_of_evenOK (by decide)) (by decide)

/-- C4 counterexample: on the store of the single path edge a-b (a valid
symmetric adjacency store), the start vertex a has an unused incident edge,
yet hierholzer_tour dead-ends at b and raises instead of returning a closed
walk — the claim is false for arbitrary adjacency stores; the even-degree
hypothesis is required. -/
theorem hierholzer_tour_contract_cex :
    KeysNodup adjPath ∧ Symm adjPath ∧ lk adjPath "a" ≠ [] ∧
    hierholzer_tour adjPath "a" = none :=
  ⟨by decide, symm_of_symmOK (by decide), by decide, by decide⟩

/-- C5: when the outer loop finds vertex v at position v_index of the master
tour and extracts a closed sub-tour v_tour from v, the reversed insertion
loop rewrites the master tour into exactly
take v_index ++ v_tour ++ drop (v_index + 1): the single occurrence of v at
that position is replaced by the whole sub-tour, the first and last elements
of the master tour are unchanged (the tour stays closed), and its length
grows by len(v_tour) - 1. -/
theorem splice_replaces (tour : List V) (i : Nat) (vt : List V) (v : V)
    (hi : i < tour.length) (hv : tour.get ⟨i, hi⟩ = v)
    (hhd : vt.head? = some v) (hlast : vt.getLast? = some v)
    (hlen : 2 ≤ vt.length) :
    splice tour i vt = tour.take i ++ vt ++ tour.drop (i + 1) ∧
    (splice tour i vt).length + 1 = tour.length + vt.length ∧
    (splice tour i vt).head? = tour.head? ∧
    (splice tour i vt).getLast? = tour.getLast? :=
  ⟨splice_eq_middle hi hv hhd, splice_length hlen hi,
   splice_head hi hv hhd, splice_getLast hi hv hhd hlast hlen⟩

/-- C5 witness: splicing the sub-tour b,c,b into the tour a,b,a at position
1 yields a,b,c,b,a. -/
theorem splice_replaces_witness :
    splice ["a", "b", "a"] 1 ["b", "c", "b"] =
      (["a", "b", "a"] : List V).take 1 ++ ["b", "c", "b"] ++
        (["a", "b", "a"] : List V).drop 2 ∧
    (splice ["a", "b", "a"] 1 ["b", "c", "b"]).length + 1 =
      (["a", "b", "a"] : List V).length + (["b", "c", "b"] : List V).length ∧
    (splice ["a", "b", "a"] 1 ["b", "c", "b"]).head? =
      (["a", "b", "a"] : List V).head? ∧
    (splice ["a", "b", "a"] 1 ["b", "c", "b"]).getLast? =
      (["a", "b", "a"] : List V).getLast? :=
  splice_replaces ["a", "b", "a"] 1 ["b", "c", "b"] "b" (by decide) (by decide)
    (by decide) (by decide) (by decide)

/-- C6 (amended): on a well-formed store with all remaining degrees even,
hierholzer_tour started at a vertex with at least one unused incident edge
always returns (in finitely many steps, being a total function) and its walk
ends back at the start; and on a connected all-even input graph with at
least one edge the outer loop of hierholzer terminates with every vertex of
the master tour — indeed every vertex — left with zero unused incident
edges. -/
theorem hierholzer_termination :
    (∀ (adj : Adj) (s : V), KeysNodup adj → Symm adj → LoopsEven adj →
      EvenDeg adj → lk adj s ≠ [] →
      ∃ vt adj', hierholzer_tour adj s = some (vt, adj') ∧
        vt.getLast? = some s) ∧
    (∀ g : Graph, GraphWF g → Connected g → EvenDeg g.adj_list → HasEdge g →
      ∃ tour adjF, hierholzerFull g = some (tour, adjF) ∧
        (∀ v ∈ tour, lk adjF v = []) ∧ dirEdges adjF = 0) := by
  constructor
  · intro adj s hnd hsym hle hev hne
    obtain ⟨r, hsub⟩ := hierholzer_tour_success hnd (symmM_of_symm hnd hsym)
      (loopsEvenM_of hnd hle)
      (balM_self_iff.2 (by intro v; rw [degM_eq hnd]; exact hev v)) hne
    rcases r with ⟨vt, adj'⟩
    obtain ⟨_, hlast, _, _, _, _, _, _, _, _⟩ := hierholzer_tour_sound hsub
    exact ⟨vt, adj', hsub, hlast⟩
  · intro g hwf hconn hev hedge
    obtain ⟨tour, adjF, hfull, _, _, _, _, hexh, hzero⟩ :=
      hierholzer_main hwf hconn hev hedge
    exact ⟨tour, adjF, hfull, hexh, hzero⟩

/-- C6 witness: the sub-tour extraction returns to its start on the
4-cycle's store, and the outer loop terminates with an exhausted store on
the 4-cycle. -/
theorem hierholzer_termination_witness :
    (∃ vt adj', hierholzer_tour sqG.adj_list "a" = some (vt, adj') ∧
      vt.getLast? = some "a") ∧
    (∃ tour adjF, hierholzerFull sqG = some (tour, adjF) ∧
      (∀ v ∈ tour, lk adjF v = []) ∧ dirEdges adjF = 0) :=
  ⟨hierholzer_termination.1 sqG.adj_list "a" (by decide)
      (symm_of_symmOK (by decide)) (loopsEven_of_loopsOK (by decide))
      (evenDeg_of_evenOK (by decide)) (by decide),
   hierholzer_termination.2 sqG
      (graphWF_of_checks (by decide) (by decide) (by decide) (by decide) (by decide))
      connected_sqG (evenDeg_of_evenOK (by decide)) (by decide)⟩

/-- C6 counterexample: the store of a single isolated vertex satisfies the
claim's stated precondition (every vertex has even remaining degree and the
store is connected), yet hierholzer_tour started at a does not return to a:
it raises immediately (pop from an empty list), so the claim needs the extra
hypothesis that the start vertex has an unused incident edge. -/
theorem hierholzer_termination_cex :
    KeysNodup adjTriv ∧ Symm adjTriv ∧ LoopsEven adjTriv ∧ EvenDeg adjTriv ∧
    ConnectedAdj adjTriv ∧ hierholzer_tour adjTriv "a" = none :=
  ⟨by decide, symm_of_symmOK (by decide), loopsEven_of_loopsOK (by decide),
   evenDeg_of_evenOK (by decide), connected_adjTriv, by decide⟩

/-- C7 (amended): hierholzer never mutates its argument — in the
state-passing embedding the caller's graph after the call is the original
graph, because the source works on a deep copy of the adjacency (line 39) —
and consequently, for valid inputs with at least one edge, running it twice
on the same graph returns two (identical, as the tie-break is the fixed
pop-from-the-end order) tours that each satisfy closure, edge-completeness
and the length invariant. -/
theorem hierholzer_no_mutation :
    (∀ g : Graph, (hierholzerSt g).2 = g) ∧
    (∀ g : Graph, GraphWF g → Connected g → EvenDeg g.adj_list → HasEdge g →
      ∃ t1 t2, (hierholzerSt g).1 = some t1 ∧
        (hierholzerSt (hierholzerSt g).2).1 = some t2 ∧
        (t1.head? = t1.getLast? ∧ walkPairs t1 = dirEdges g.adj_list ∧
          t1.length = numEdges g + 1) ∧
        (t2.head? = t2.getLast? ∧
          walkPairs t2 = dirEdges ((hierholzerSt g).2).adj_list ∧
          t2.length = numEdges ((hierholzerSt g).2) + 1)) := by
  constructor
  · intro g
    rfl
  · intro g hwf hconn hev hedge
    obtain ⟨tour, adjF, hfull, hhd, hlast, hwalk, hlen, _, _⟩ :=
      hierholzer_main hwf hconn hev hedge
    have hh : hierholzer g = some tour := by
      unfold hierholzer
      rw [hfull]
      rfl
    have hcard := congrArg Multiset.card hwalk
    rw [walkPairs_card] at hcard
    have hlennum : tour.length = numEdges g + 1 := by
      unfold numEdges
      omega
    exact ⟨tour, tour, hh, hh, ⟨by rw [hhd, hlast], hwalk, hlennum⟩,
      ⟨by rw [hhd, hlast], hwalk, hlennum⟩⟩

/-- C7 witness: the frame property and the two-run property hold on the
4-cycle. -/
theorem hierholzer_no_mutation_witness :
    (hierholzerSt sqG).2 = sqG ∧
    (∃ t1 t2, (hierholzerSt sqG).1 = some t1 ∧
      (hierholzerSt (hierholzerSt sqG).2).1 = some t2 ∧
      (t1.head? = t1.getLast? ∧ walkPairs t1 = dirEdges sqG.adj_list ∧
        t1.length = numEdges sqG + 1) ∧
      (t2.head? = t2.getLast? ∧
        walkPairs t2 = dirEdges ((hierholzerSt sqG).2).adj_list ∧
        t2.length = numEdges ((hierholzerSt sqG).2) + 1)) :=
  ⟨hierholzer_no_mutation.1 sqG,
   hierholzer_no_mutation.2 sqG
    (graphWF_of_checks (by decide) (by decide) (by decide) (by decide) (by decide))
    connected_sqG (evenDeg_of_evenOK (by decide)) (by decide)⟩

/-- C7 counterexample: the non-mutation part holds on the connected all-even
one-vertex edgeless graph, but running hierholzer on it (once or twice)
yields no tour at all, so the two-tours consequence fails without the
at-least-one-edge hypothesis. -/
theorem hierholzer_no_mutation_cex :
    (hierholzerSt gTriv).2 = gTriv ∧ GraphWF gTriv ∧ Connected gTriv ∧
    EvenDeg gTriv.adj_list ∧ (hierholzerSt gTriv).1 = none :=
  ⟨rfl,
   graphWF_of_checks (by decide) (by decide) (by decide) (by decide) (by decide),
   connected_gTriv, evenDeg_of_evenOK (by decide), by decide⟩

/-- C8: at every point during execution, the count of v in u's adjacency
entry equals the count of u in v's entry — each edge-removal step removes
both sides of an edge together, so every traversal step, every sub-tour
extraction, and the whole run preserve symmetry of the store (dict keys are
distinct, as they are in Python). -/
theorem adjacency_symmetry_invariant :
    (∀ (adj : Adj) (cur nv : V) (adj' : Adj), KeysNodup adj → Symm adj →
      tourStep adj cur = some (nv, adj') → Symm adj') ∧
    (∀ (adj : Adj) (s : V) (vt : List V) (adj' : Adj), KeysNodup adj →
      Symm adj → hierholzer_tour adj s = some (vt, adj') → Symm adj') ∧
    (∀ (g : Graph) (tour : List V) (adjF : Adj), KeysNodup g.adj_list →
      Symm g.adj_list → hierholzerFull g = some (tour, adjF) → Symm adjF) := by
  refine ⟨?_, ?_, ?_⟩
  · intro adj cur nv adj' hnd hsym hstep
    exact symm_of_symmM (tourStep_nodup hstep hnd)
      (tourStep_symmM hstep (symmM_of_symm hnd hsym))
  · intro adj s vt adj' hnd hsym hsub
    obtain ⟨_, _, _, _, hkeys, _, _, hsymp, _, hndp⟩ := hierholzer_tour_sound hsub
    exact symm_of_symmM (hndp hnd) (hsymp (symmM_of_symm hnd hsym))
  · intro g tour adjF hnd hsym hfull
    obtain ⟨v0, rest, tour0, adj1, hverts, hsub, hrun⟩ := hierholzerFull_inv hfull
    obtain ⟨_, _, _, _, hkeys0, _, _, hsymp0, _, hndp0⟩ :=
      hierholzer_tour_sound hsub
    obtain ⟨_, _, _, hkeysF, hsympF⟩ := hLoop_sound _ adj1 tour0 0 tour adjF hrun
    have hndF : KeysNodup adjF := by
      unfold KeysNodup
      rw [hkeysF, hkeys0]
      exact hnd
    exact symm_of_symmM hndF (hsympF (hsymp0 (symmM_of_symm hnd hsym)))

/-- C8 witness: the store left by extracting the full sub-tour of the
4-cycle from a is still symmetric. -/
theorem adjacency_symmetry_invariant_witness :
    Symm ([("a", []), ("b", []), ("c", []), ("d", [])] : Adj) :=
  adjacency_symmetry_invariant.2.1 sqG.adj_list "a" ["a", "d", "c", "b", "a"]
    ([("a", []), ("b", []), ("c", []), ("d", [])] : Adj) (by decide)
    (symm_of_symmOK (by decide)) (by decide)

/-- C9: calling hierholzer_tour on a vertex with no unused incident edges
signals a failure (the model's none, standing for the Python IndexError or
KeyError raised by `adj_list[start_vertex].pop()`) rather than silently
returning a malformed walk. -/
theorem hierholzer_tour_no_edges (adj : Adj) (s : V) (h : lk adj s = []) :
    hierholzer_tour adj s = none := by
  have hstep : tourStep adj s = none := by
    unfold tourStep
    cases hl : lookupAdj adj s with
    | none => rfl
    | some l =>
      have hl0 : l = [] := by
        unfold lk at h
        rw [hl] at h
        simpa using h
      rw [hl0]
      rfl
  unfold hierholzer_tour
  rw [hstep]

/-- C9 witness: on the store of a single isolated vertex, hierholzer_tour
fails. -/
theorem hierholzer_tour_no_edges_witness : hierholzer_tour adjTriv "a" = none :=
  hierholzer_tour_no_edges adjTriv "a" (by decide)

/-- C10: whenever hierholzer returns a tour, its first element — and its
last — is the first vertex of the graph's vertex list; the caller cannot
choose a different start vertex through the public interface. -/
theorem hierholzer_start_vertex (g : Graph) (t : List V)
    (h : hierholzer g = some t) :
    t.head? = g.vertices.head? ∧ t.getLast? = g.vertices.head? := by
  unfold hierholzer at h
  cases hfull : hierholzerFull g with
  | none => rw [hfull] at h; simp at h
  | some r =>
    rcases r with ⟨tour, adjF⟩
    rw [hfull] at h
    simp only [Option.map_some', Option.some.injEq] at h
    obtain ⟨v0, rest, tour0, adj1, hverts, hsub, hrun⟩ := hierholzerFull_inv hfull
    obtain ⟨hhd0, hlast0, _, _, _, _, _, _, _, _⟩ := hierholzer_tour_sound hsub
    obtain ⟨hhdF, hlastF, _, _, _⟩ := hLoop_sound _ adj1 tour0 0 tour adjF hrun
    constructor
    · rw [← h, hhdF, hhd0, hverts]
      rfl
    · rw [← h, hlastF, hlast0, hverts]
      rfl

/-- C10 witness: on the 4-cycle the returned tour starts and ends at
vertices[0] = a. -/
theorem hierholzer_start_vertex_witness :
    (["a", "d", "c", "b", "a"] : List V).head? = sqG.vertices.head? ∧
    (["a", "d", "c", "b", "a"] : List V).getLast? = sqG.vertices.head? :=
  hierholzer_start_vertex sqG ["a", "d", "c", "b", "a"] (by decide)
